import Mathlib

/-!
Verification of the query-translation, pagination and conditional-write layer
of `xyz_tablestore` (files `store.py` and `lookup.py`), via a shallow
embedding in Lean.

Modelling conventions:
* A Python string is modelled as `List Char` (`PyStr`), so that the string
  scanning done by the source (splitting on `"__"`, prefix/suffix tests,
  character replacement, JSON encoding) is an executable function that can be
  reasoned about by structural induction.
* A Python value is modelled by the inductive `PyVal` (None, bool, int, str,
  list, tuple, dict with string keys).  Floats do not occur in any of the
  code under study and are not modelled.  A Python `dict` is modelled as its
  items list (association list); the source code never creates a dict with
  a duplicated key.
* The remote Tablestore backend is an external collaborator; its responses
  (`put_row` outcome, `search` response, `get_range` batches) are passed to
  the embedded functions as explicit arguments.
-/

/-- A Python `str`, modelled as its list of characters. -/
abbrev PyStr := List Char

/-- Shorthand turning a Lean string literal into a `PyStr`. -/
def pys (s : String) : PyStr := s.toList

/-- A Python runtime value as used by `store.py` / `lookup.py`:
`None`, `bool`, `int`, `str`, `list`, `tuple`, and string-keyed `dict`
(the only dict keys appearing in this code are strings). -/
inductive PyVal where
  | none
  | bool (b : Bool)
  | int (n : Int)
  | str (s : PyStr)
  | list (xs : List PyVal)
  | tuple (xs : List PyVal)
  | dict (kvs : List (PyStr × PyVal))

mutual

/-- Structural (boolean) equality on `PyVal`. -/
def pyBeq : PyVal → PyVal → Bool
  | .none, .none => true
  | .bool a, .bool b => a == b
  | .int a, .int b => a == b
  | .str a, .str b => a == b
  | .list a, .list b => pyBeqL a b
  | .tuple a, .tuple b => pyBeqL a b
  | .dict a, .dict b => pyBeqKV a b
  | _, _ => false

/-- Elementwise equality of `PyVal` lists. -/
def pyBeqL : List PyVal → List PyVal → Bool
  | [], [] => true
  | a :: as', b :: bs' => pyBeq a b && pyBeqL as' bs'
  | _, _ => false

/-- Componentwise equality of key/value lists. -/
def pyBeqKV : List (PyStr × PyVal) → List (PyStr × PyVal) → Bool
  | [], [] => true
  | (k₁, v₁) :: as', (k₂, v₂) :: bs' => k₁ == k₂ && pyBeq v₁ v₂ && pyBeqKV as' bs'
  | _, _ => false

end

mutual

theorem pyBeq_iff : ∀ a b : PyVal, pyBeq a b = true ↔ a = b
  | .none, .none => by simp [pyBeq]
  | .bool _, .bool _ => by simp [pyBeq]
  | .int _, .int _ => by simp [pyBeq]
  | .str _, .str _ => by simp [pyBeq]
  | .list a, .list b => by simp [pyBeq, pyBeqL_iff a b]
  | .tuple a, .tuple b => by simp [pyBeq, pyBeqL_iff a b]
  | .dict a, .dict b => by simp [pyBeq, pyBeqKV_iff a b]
  | .none, .bool _ | .none, .int _ | .none, .str _ | .none, .list _ | .none, .tuple _
  | .none, .dict _
  | .bool _, .none | .bool _, .int _ | .bool _, .str _ | .bool _, .list _
  | .bool _, .tuple _ | .bool _, .dict _
  | .int _, .none | .int _, .bool _ | .int _, .str _ | .int _, .list _
  | .int _, .tuple _ | .int _, .dict _
  | .str _, .none | .str _, .bool _ | .str _, .int _ | .str _, .list _
  | .str _, .tuple _ | .str _, .dict _
  | .list _, .none | .list _, .bool _ | .list _, .int _ | .list _, .str _
  | .list _, .tuple _ | .list _, .dict _
  | .tuple _, .none | .tuple _, .bool _ | .tuple _, .int _ | .tuple _, .str _
  | .tuple _, .list _ | .tuple _, .dict _
  | .dict _, .none | .dict _, .bool _ | .dict _, .int _ | .dict _, .str _
  | .dict _, .list _ | .dict _, .tuple _ => by simp [pyBeq]

theorem pyBeqL_iff : ∀ a b : List PyVal, pyBeqL a b = true ↔ a = b
  | [], [] => by simp [pyBeqL]
  | x :: xs, y :: ys => by simp [pyBeqL, pyBeq_iff x y, pyBeqL_iff xs ys]
  | [], _ :: _ => by simp [pyBeqL]
  | _ :: _, [] => by simp [pyBeqL]

theorem pyBeqKV_iff : ∀ a b : List (PyStr × PyVal), pyBeqKV a b = true ↔ a = b
  | [], [] => by simp [pyBeqKV]
  | (k₁, v₁) :: xs, (k₂, v₂) :: ys => by
    simp [pyBeqKV, pyBeq_iff v₁ v₂, pyBeqKV_iff xs ys, Prod.ext_iff, and_assoc]
  | [], _ :: _ => by simp [pyBeqKV]
  | _ :: _, [] => by simp [pyBeqKV]

end

instance : DecidableEq PyVal := fun a b => decidable_of_iff _ (pyBeq_iff a b)

instance : Inhabited PyVal := ⟨PyVal.none⟩

/-- A Python attribute dict, modelled as its items list. -/
abbrev PyDict := List (PyStr × PyVal)

/-- `dict.get`: value of the first (unique) entry with the given key. -/
def dictGet (d : PyDict) (k : PyStr) : Option PyVal :=
  match d with
  | [] => Option.none
  | (k', v) :: rest => if k' = k then some v else dictGet rest k

/-- `key in dict`. -/
def dictHas (d : PyDict) (k : PyStr) : Bool := (dictGet d k).isSome

/-- `d[k] = v` on a Python dict: replaces the value in place if the key is
present, appends the pair otherwise (Python dicts keep insertion order). -/
def dictSet (d : PyDict) (k : PyStr) (v : PyVal) : PyDict :=
  if dictHas d k then d.map (fun kv => if kv.1 = k then (k, v) else kv)
  else d ++ [(k, v)]

/-- `dict.pop(k)` guarded by `k in d`: removes the entry with that key.
(A Python dict holds a key at most once; on such dicts the filter removes
exactly that entry.) -/
def dictPop (d : PyDict) (k : PyStr) : PyDict := d.filter (fun kv => kv.1 ≠ k)

/-- `{**a, **b}` / `dict.update`: insert every entry of `b` into `a`. -/
def dictUpdate (a b : PyDict) : PyDict := b.foldl (fun d kv => dictSet d kv.1 kv.2) a

/-! ## The JSON codec used by the row codec

`Store.encode` calls `json.dumps` on list/tuple/dict values and
`Store.decode` calls `json.loads` on bracket-delimited strings.  Both library
functions are embedded here: `json_dumps` reproduces `json.dumps` with its
default separators `", "` and `": "` (non-ASCII characters are emitted
literally instead of `\uXXXX`-escaped, which is invisible to `json.loads`
round-trips), and `json_loads` is a recursive-descent parser for the JSON
grammar restricted to the values `json_dumps` can produce (no floats occur
anywhere in this code base). -/

/-- The decimal digit character for `d < 10`. -/
def digitChar (d : Nat) : Char := Char.ofNat (48 + d)

/-- Lower-case hexadecimal digit character for `d < 16`. -/
def hexChar (d : Nat) : Char := if d < 10 then Char.ofNat (48 + d) else Char.ofNat (87 + d)

/-- Decimal representation of a natural number (`str(n)` in Python). -/
def natDigits (n : Nat) : PyStr :=
  if n < 10 then [digitChar n]
  else natDigits (n / 10) ++ [digitChar (n % 10)]
  decreasing_by exact Nat.div_lt_self (by omega) (by omega)

/-- Decimal representation of an integer (`str(n)` / `json.dumps(n)`). -/
def intRepr (n : Int) : PyStr :=
  if n < 0 then '-' :: natDigits (-n).toNat else natDigits n.toNat

/-- How `json.dumps` writes one character inside a string literal:
quote, backslash and the named control characters get two-character escapes,
the remaining control characters get `\u00xx`, everything else is literal. -/
def jsonEscChar (c : Char) : PyStr :=
  if c = '"' then ['\\', '"']
  else if c = '\\' then ['\\', '\\']
  else if c = '\n' then ['\\', 'n']
  else if c = '\t' then ['\\', 't']
  else if c = '\r' then ['\\', 'r']
  else if c = '\x08' then ['\\', 'b']
  else if c = '\x0c' then ['\\', 'f']
  else if c.toNat < 32 then
    ['\\', 'u', '0', '0', hexChar (c.toNat / 16), hexChar (c.toNat % 16)]
  else [c]

/-- `json.dumps` of a string: quoted, characters escaped. -/
def jsonDumpStr (s : PyStr) : PyStr := '"' :: (s.map jsonEscChar).flatten ++ ['"']

mutual

/-- `json.dumps(v)` with the default separators. -/
def json_dumps : PyVal → PyStr
  | .none => pys "null"
  | .bool b => if b then pys "true" else pys "false"
  | .int n => intRepr n
  | .str s => jsonDumpStr s
  | .list xs => '[' :: jsonDumpElems xs ++ [']']
  | .tuple xs => '[' :: jsonDumpElems xs ++ [']']
  | .dict kvs => '\x7b' :: jsonDumpMembers kvs ++ ['\x7d']

/-- The comma-separated element list of a dumped JSON array. -/
def jsonDumpElems : List PyVal → PyStr
  | [] => []
  | [x] => json_dumps x
  | x :: xs => json_dumps x ++ ',' :: ' ' :: jsonDumpElems xs

/-- The comma-separated member list of a dumped JSON object. -/
def jsonDumpMembers : List (PyStr × PyVal) → PyStr
  | [] => []
  | [(k, v)] => jsonDumpStr k ++ ':' :: ' ' :: json_dumps v
  | (k, v) :: kvs => jsonDumpStr k ++ ':' :: ' ' :: json_dumps v ++ ',' :: ' ' :: jsonDumpMembers kvs

end

/-- The whitespace characters `json.loads` skips between tokens. -/
def isJsonWs (c : Char) : Bool := c == ' ' || c == '\t' || c == '\n' || c == '\r'

/-- Skip leading JSON whitespace. -/
def skipWs (s : PyStr) : PyStr := s.dropWhile isJsonWs

theorem skipWs_le (s : PyStr) : (skipWs s).length ≤ s.length :=
  (List.dropWhile_sublist _).length_le

/-- Value of one hexadecimal digit character. -/
def hexVal (c : Char) : Option Nat :=
  if c.isDigit then some (c.toNat - 48)
  else if 97 ≤ c.toNat ∧ c.toNat ≤ 102 then some (c.toNat - 87)
  else if 65 ≤ c.toNat ∧ c.toNat ≤ 70 then some (c.toNat - 55)
  else Option.none

/-- The character denoted by a two-character JSON escape. -/
def unescapeChar (e : Char) : Option Char :=
  if e = '"' then some '"'
  else if e = '\\' then some '\\'
  else if e = '/' then some '/'
  else if e = 'n' then some '\n'
  else if e = 't' then some '\t'
  else if e = 'r' then some '\r'
  else if e = 'b' then some '\x08'
  else if e = 'f' then some '\x0c'
  else Option.none

/-- Parse the body of a JSON string literal (the opening quote already
consumed), up to and including the closing quote.  Returns the decoded
characters and the remaining input, which is strictly shorter than the
input (at least the closing quote is consumed). -/
def parseStrBody : (s : PyStr) → Option (PyStr × { r : PyStr // r.length < s.length })
  | [] => Option.none
  | c :: rest =>
    if c = '"' then some ([], ⟨rest, by simp⟩)
    else if c = '\\' then
      match rest with
      | [] => Option.none
      | e :: rest' =>
        if e = 'u' then
          match rest' with
          | a :: b :: c2 :: d :: rest2 =>
            match hexVal a, hexVal b, hexVal c2, hexVal d with
            | some ha, some hb, some hc, some hd =>
              match parseStrBody rest2 with
              | some (cs, ⟨r, hr⟩) =>
                some ((Char.ofNat (((ha * 16 + hb) * 16 + hc) * 16 + hd)) :: cs,
                  ⟨r, by simp only [List.length_cons] at hr ⊢; omega⟩)
              | Option.none => Option.none
            | _, _, _, _ => Option.none
          | _ => Option.none
        else
          match unescapeChar e with
          | some u =>
            match parseStrBody rest' with
            | some (cs, ⟨r, hr⟩) =>
              some (u :: cs, ⟨r, by simp only [List.length_cons] at hr ⊢; omega⟩)
            | Option.none => Option.none
          | Option.none => Option.none
    else if c.toNat < 32 then Option.none
    else
      match parseStrBody rest with
      | some (cs, ⟨r, hr⟩) =>
        some (c :: cs, ⟨r, by simp only [List.length_cons] at hr ⊢; omega⟩)
      | Option.none => Option.none
termination_by s => s.length
decreasing_by all_goals (simp only [List.length_cons]; omega)

/-- Fold a digit string into the natural number it denotes. -/
def digitsToNat (ds : PyStr) : Nat := ds.foldl (fun a c => 10 * a + (c.toNat - 48)) 0

/-- Parse an unsigned JSON number.  The values this layer ever feeds to
`json.loads` are produced by `json.dumps` on int-valued data, so fractions
and exponents (floats) are rejected rather than modelled. -/
def parsePosNumber (s : PyStr) : Option (Nat × PyStr) :=
  if s.takeWhile Char.isDigit = [] then Option.none
  else
    match s.dropWhile Char.isDigit with
    | c :: t =>
      if c = '.' ∨ c = 'e' ∨ c = 'E' then Option.none
      else some (digitsToNat (s.takeWhile Char.isDigit), c :: t)
    | [] => some (digitsToNat (s.takeWhile Char.isDigit), [])

theorem parsePosNumber_len {s : PyStr} {n : Nat} {r : PyStr}
    (h : parsePosNumber s = some (n, r)) : r.length < s.length := by
  unfold parsePosNumber at h
  by_cases hd : s.takeWhile Char.isDigit = []
  · simp [hd] at h
  · have hlen : (s.takeWhile Char.isDigit).length + (s.dropWhile Char.isDigit).length = s.length := by
      rw [← List.length_append, List.takeWhile_append_dropWhile]
    have hpos : 0 < (s.takeWhile Char.isDigit).length := List.length_pos.mpr hd
    simp only [hd, if_false] at h
    cases hm : s.dropWhile Char.isDigit with
    | nil =>
      rw [hm] at h hlen
      simp only [Option.some.injEq, Prod.mk.injEq] at h
      obtain ⟨-, hr⟩ := h
      subst hr
      simp only [List.length_nil]
      omega
    | cons c t =>
      rw [hm] at h hlen
      by_cases hc : c = '.' ∨ c = 'e' ∨ c = 'E'
      · simp [hc] at h
      · simp only [hc, if_false, Option.some.injEq, Prod.mk.injEq] at h
        obtain ⟨-, hr⟩ := h
        subst hr
        simp only [List.length_cons] at hlen ⊢
        omega

/-! ## Round-trip lemmas for the JSON codec -/

mutual

/-- Values with no tuple anywhere: `json.dumps` turns a Python tuple into a
JSON array, which `json.loads` reads back as a list, so only tuple-free
values can round-trip. -/
def noTuple : PyVal → Bool
  | .none => true
  | .bool _ => true
  | .int _ => true
  | .str _ => true
  | .list xs => noTupleL xs
  | .tuple _ => false
  | .dict kvs => noTupleKV kvs

/-- `noTuple` on every element of a list. -/
def noTupleL : List PyVal → Bool
  | [] => true
  | x :: xs => noTuple x && noTupleL xs

/-- `noTuple` on every value of a key/value list. -/
def noTupleKV : List (PyStr × PyVal) → Bool
  | [] => true
  | (_, v) :: kvs => noTuple v && noTupleKV kvs

end

/-- The input that follows a dumped number must not begin with a character
that would extend the number token (a digit, or a fraction/exponent mark). -/
def numBoundary : PyStr → Prop
  | [] => True
  | c :: _ => c.isDigit = false ∧ c ≠ '.' ∧ c ≠ 'e' ∧ c ≠ 'E'

theorem natDigits_ne_nil (n : Nat) : natDigits n ≠ [] := by
  unfold natDigits
  by_cases h : n < 10 <;> simp [h]

theorem natDigits_digits (n : Nat) : ∀ c ∈ natDigits n, c.isDigit = true := by
  induction n using Nat.strong_induction_on with
  | _ n ih =>
    unfold natDigits
    by_cases h : n < 10
    · simp only [h, if_true, List.mem_singleton]
      rintro c rfl
      unfold digitChar
      interval_cases n <;> decide
    · simp only [h, if_false, List.mem_append, List.mem_singleton]
      rintro c hc
      rcases hc with hc | rfl
      · exact ih (n / 10) (Nat.div_lt_self (by omega) (by omega)) c hc
      · unfold digitChar
        have : n % 10 < 10 := Nat.mod_lt _ (by omega)
        interval_cases h10 : n % 10 <;> decide

theorem digitsToNat_append (a : PyStr) (c : Char) :
    digitsToNat (a ++ [c]) = 10 * digitsToNat a + (c.toNat - 48) := by
  unfold digitsToNat
  rw [List.foldl_append]
  rfl

theorem digitsToNat_natDigits (n : Nat) : digitsToNat (natDigits n) = n := by
  induction n using Nat.strong_induction_on with
  | _ n ih =>
    unfold natDigits
    by_cases h : n < 10
    · simp only [h, if_true]
      unfold digitsToNat digitChar
      interval_cases n <;> decide
    · simp only [h, if_false]
      rw [digitsToNat_append, ih (n / 10) (Nat.div_lt_self (by omega) (by omega))]
      have h10 : n % 10 < 10 := Nat.mod_lt _ (by omega)
      have : (digitChar (n % 10)).toNat = 48 + n % 10 := by
        unfold digitChar
        interval_cases hm : n % 10 <;> decide
      rw [this]
      omega

theorem takeWhile_append_all {p : Char → Bool} {a : PyStr} (b : PyStr)
    (ha : ∀ c ∈ a, p c = true) :
    (a ++ b).takeWhile p = a ++ b.takeWhile p ∧ (a ++ b).dropWhile p = b.dropWhile p := by
  induction a with
  | nil => simp
  | cons c t ih =>
    have hc : p c = true := ha c (by simp)
    have ht : ∀ c ∈ t, p c = true := fun x hx => ha x (by simp [hx])
    obtain ⟨ih1, ih2⟩ := ih ht
    constructor
    · simp [List.takeWhile_cons, hc, ih1]
    · simp [List.dropWhile_cons, hc, ih2]

theorem takeWhile_boundary {p : Char → Bool} {b : PyStr}
    (hb : b = [] ∨ ∃ c t, b = c :: t ∧ p c = false) :
    b.takeWhile p = [] ∧ b.dropWhile p = b := by
  rcases hb with rfl | ⟨c, t, rfl, hc⟩
  · simp
  · simp [List.takeWhile_cons, List.dropWhile_cons, hc]

theorem parsePosNumber_natDigits (n : Nat) (rest : PyStr) (hb : numBoundary rest) :
    parsePosNumber (natDigits n ++ rest) = some (n, rest) := by
  have hdigs := natDigits_digits n
  have hbnd : rest = [] ∨ ∃ c t, rest = c :: t ∧ Char.isDigit c = false := by
    cases rest with
    | nil => exact Or.inl rfl
    | cons c t => exact Or.inr ⟨c, t, rfl, hb.1⟩
  obtain ⟨htw, hdw⟩ := takeWhile_append_all (p := Char.isDigit) rest hdigs
  obtain ⟨htb, hdb⟩ := takeWhile_boundary (p := Char.isDigit) hbnd
  unfold parsePosNumber
  rw [htw, htb, hdw, hdb, List.append_nil]
  have hne : natDigits n ≠ [] := natDigits_ne_nil n
  simp only [hne, if_false]
  cases hr : rest with
  | nil => simp [digitsToNat_natDigits]
  | cons c t =>
    rw [hr] at hb
    obtain ⟨-, h2, h3, h4⟩ := hb
    have : ¬(c = '.' ∨ c = 'e' ∨ c = 'E') := by tauto
    simp [this, digitsToNat_natDigits]

/-- `parseStrBody` without the length bookkeeping. -/
def parseStrBodyP (s : PyStr) : Option (PyStr × PyStr) :=
  (parseStrBody s).map (fun p => (p.1, p.2.val))

theorem hexVal_hexChar {d : Nat} (h : d < 16) : hexVal (hexChar d) = some d := by
  unfold hexVal hexChar
  interval_cases d <;> decide

theorem parseStrBodyP_quote (s : PyStr) : parseStrBodyP ('"' :: s) = some ([], s) := by
  unfold parseStrBodyP
  rw [parseStrBody.eq_def]
  simp

theorem parseStrBodyP_lit (c : Char) (h1 : c ≠ '"') (h2 : c ≠ '\\') (h3 : 32 ≤ c.toNat)
    (s : PyStr) : parseStrBodyP (c :: s) = (parseStrBodyP s).map (fun p => (c :: p.1, p.2)) := by
  unfold parseStrBodyP
  rw [parseStrBody.eq_def]
  have h3' : ¬ c.toNat < 32 := by omega
  rcases hps : parseStrBody s with - | ⟨cs, r, hr⟩ <;> simp [h1, h2, h3', hps]

theorem parseStrBodyP_esc (e u : Char) (hu : unescapeChar e = some u) (hne : e ≠ 'u')
    (s : PyStr) :
    parseStrBodyP ('\\' :: e :: s) = (parseStrBodyP s).map (fun p => (u :: p.1, p.2)) := by
  unfold parseStrBodyP
  rw [parseStrBody.eq_def]
  rcases hps : parseStrBody s with - | ⟨cs, r, hr⟩ <;> simp [hne, hu, hps]

theorem parseStrBodyP_escU (a b c2 d : Char) (va vb vc vd : Nat)
    (ha : hexVal a = some va) (hb : hexVal b = some vb)
    (hc : hexVal c2 = some vc) (hd : hexVal d = some vd) (s : PyStr) :
    parseStrBodyP ('\\' :: 'u' :: a :: b :: c2 :: d :: s) =
      (parseStrBodyP s).map
        (fun p => ((Char.ofNat (((va * 16 + vb) * 16 + vc) * 16 + vd)) :: p.1, p.2)) := by
  unfold parseStrBodyP
  rw [parseStrBody.eq_def]
  rcases hps : parseStrBody s with - | ⟨cs, r, hr⟩ <;> simp [ha, hb, hc, hd, hps]

theorem parseStrBodyP_escChar (c : Char) (s : PyStr) :
    parseStrBodyP (jsonEscChar c ++ s) = (parseStrBodyP s).map (fun p => (c :: p.1, p.2)) := by
  unfold jsonEscChar
  by_cases h1 : c = '"'
  · subst h1; simp only [if_pos rfl]
    exact parseStrBodyP_esc '"' '"' (by decide) (by decide) s
  rw [if_neg h1]
  by_cases h2 : c = '\\'
  · subst h2; simp only [if_pos rfl]
    exact parseStrBodyP_esc '\\' '\\' (by decide) (by decide) s
  rw [if_neg h2]
  by_cases h3 : c = '\n'
  · subst h3; simp only [if_pos rfl]
    exact parseStrBodyP_esc 'n' '\n' (by decide) (by decide) s
  rw [if_neg h3]
  by_cases h4 : c = '\t'
  · subst h4; simp only [if_pos rfl]
    exact parseStrBodyP_esc 't' '\t' (by decide) (by decide) s
  rw [if_neg h4]
  by_cases h5 : c = '\r'
  · subst h5; simp only [if_pos rfl]
    exact parseStrBodyP_esc 'r' '\r' (by decide) (by decide) s
  rw [if_neg h5]
  by_cases h6 : c = '\x08'
  · subst h6; simp only [if_pos rfl]
    exact parseStrBodyP_esc 'b' '\x08' (by decide) (by decide) s
  rw [if_neg h6]
  by_cases h7 : c = '\x0c'
  · subst h7; simp only [if_pos rfl]
    exact parseStrBodyP_esc 'f' '\x0c' (by decide) (by decide) s
  rw [if_neg h7]
  by_cases h8 : c.toNat < 32
  · rw [if_pos h8]
    have hdiv : c.toNat / 16 < 16 := by omega
    have hmod : c.toNat % 16 < 16 := Nat.mod_lt _ (by omega)
    have := parseStrBodyP_escU '0' '0' (hexChar (c.toNat / 16)) (hexChar (c.toNat % 16))
      0 0 (c.toNat / 16) (c.toNat % 16) (by decide) (by decide)
      (hexVal_hexChar hdiv) (hexVal_hexChar hmod) s
    simp only [List.cons_append, List.nil_append] at this ⊢
    rw [this]
    have harith : ((0 * 16 + 0) * 16 + c.toNat / 16) * 16 + c.toNat % 16 = c.toNat := by omega
    rw [harith, Char.ofNat_toNat]
  · rw [if_neg h8]
    simp only [List.cons_append, List.nil_append]
    exact parseStrBodyP_lit c h1 h2 (by omega) s

theorem parseStrBodyP_dumps (k : PyStr) (s : PyStr) :
    parseStrBodyP ((k.map jsonEscChar).flatten ++ '"' :: s) = some (k, s) := by
  induction k with
  | nil => simpa using parseStrBodyP_quote s
  | cons c t ih =>
    simp only [List.map_cons, List.flatten_cons, List.append_assoc]
    rw [parseStrBodyP_escChar, ih]
    rfl

/-! ## The JSON parser

`json.loads` is modelled by a fuelled mutual recursive-descent parser; one
unit of fuel is spent per parser call, and `json_loads` supplies
`2 * length + 2` units, which bounds the number of parser calls any input
can trigger (each pair of consecutive calls consumes at least one input
character). -/

/-- Parse the `ull` of `null`. -/
def parseLitNull : PyStr → Option (PyVal × PyStr)
  | 'u' :: 'l' :: 'l' :: r => some (.none, r)
  | _ => Option.none

/-- Parse the `rue` of `true`. -/
def parseLitTrue : PyStr → Option (PyVal × PyStr)
  | 'r' :: 'u' :: 'e' :: r => some (.bool true, r)
  | _ => Option.none

/-- Parse the `alse` of `false`. -/
def parseLitFalse : PyStr → Option (PyVal × PyStr)
  | 'a' :: 'l' :: 's' :: 'e' :: r => some (.bool false, r)
  | _ => Option.none

mutual

/-- Parse one JSON value. -/
def parseValF : Nat → PyStr → Option (PyVal × PyStr)
  | 0, _ => Option.none
  | _ + 1, [] => Option.none
  | fuel + 1, c :: rest =>
    if c = '[' then
      match skipWs rest with
      | [] => Option.none
      | c0 :: t0 =>
        if c0 = ']' then some (.list [], t0)
        else
          match parseElemsF fuel (c0 :: t0) with
          | some (xs, r) => some (.list xs, r)
          | Option.none => Option.none
    else if c = '\x7b' then
      match skipWs rest with
      | [] => Option.none
      | c0 :: t0 =>
        if c0 = '\x7d' then some (.dict [], t0)
        else
          match parseMembersF fuel (c0 :: t0) with
          | some (kvs, r) => some (.dict kvs, r)
          | Option.none => Option.none
    else if c = '"' then
      match parseStrBodyP rest with
      | some (cs, r) => some (.str cs, r)
      | Option.none => Option.none
    else if c = 'n' then parseLitNull rest
    else if c = 't' then parseLitTrue rest
    else if c = 'f' then parseLitFalse rest
    else if c = '-' then
      match parsePosNumber rest with
      | some (k, r) => some (.int (-(k : Int)), r)
      | Option.none => Option.none
    else if c.isDigit then
      match parsePosNumber (c :: rest) with
      | some (k, r) => some (.int (k : Int), r)
      | Option.none => Option.none
    else Option.none

/-- Parse the elements of a non-empty JSON array, with the closing
bracket. -/
def parseElemsF : Nat → PyStr → Option (List PyVal × PyStr)
  | 0, _ => Option.none
  | fuel + 1, s =>
    match parseValF fuel s with
    | some (v, r1) =>
      match skipWs r1 with
      | [] => Option.none
      | c0 :: t0 =>
        if c0 = ',' then
          match parseElemsF fuel (skipWs t0) with
          | some (xs, r2) => some (v :: xs, r2)
          | Option.none => Option.none
        else if c0 = ']' then some ([v], t0)
        else Option.none
    | Option.none => Option.none

/-- Parse the members of a non-empty JSON object, with the closing brace. -/
def parseMembersF : Nat → PyStr → Option (List (PyStr × PyVal) × PyStr)
  | 0, _ => Option.none
  | fuel + 1, s =>
    match s with
    | [] => Option.none
    | c :: rest =>
      if c = '"' then
        match parseStrBodyP rest with
        | some (k, r1) =>
          match skipWs r1 with
          | [] => Option.none
          | c0 :: t0 =>
            if c0 = ':' then
              match parseValF fuel (skipWs t0) with
              | some (v, r3) =>
                match skipWs r3 with
                | [] => Option.none
                | c1 :: t1 =>
                  if c1 = ',' then
                    match parseMembersF fuel (skipWs t1) with
                    | some (kvs, r5) => some ((k, v) :: kvs, r5)
                    | Option.none => Option.none
                  else if c1 = '\x7d' then some ([(k, v)], t1)
                  else Option.none
              | Option.none => Option.none
            else Option.none
        | Option.none => Option.none
      else Option.none

end

/-- `json.loads(s)`: parse one document, whitespace allowed around it;
trailing garbage is a parse error. -/
def json_loads (s : PyStr) : Option PyVal :=
  match parseValF (2 * s.length + 2) (skipWs s) with
  | some (v, r) => if skipWs r = [] then some v else Option.none
  | Option.none => Option.none

mutual

/-- Fuel needed by `parseValF` to parse the dump of a value. -/
def needV : PyVal → Nat
  | .list xs => 1 + needL xs
  | .dict kvs => 1 + needKV kvs
  | _ => 1

/-- Fuel needed by `parseElemsF` to parse dumped elements. -/
def needL : List PyVal → Nat
  | [] => 1
  | x :: xs => 1 + needV x + needL xs

/-- Fuel needed by `parseMembersF` to parse dumped members. -/
def needKV : List (PyStr × PyVal) → Nat
  | [] => 1
  | (_, v) :: kvs => 1 + needV v + needKV kvs

end

/-- A character that can legally follow a dumped value: not whitespace and
not mistakable for the start of a closing token the dump itself owns. -/
def jsonHeadOk (c : Char) : Prop :=
  isJsonWs c = false ∧ c ≠ ']' ∧ c ≠ '\x7d' ∧ c ≠ ','

theorem digit_headOk {c : Char} (h : c.isDigit = true) : jsonHeadOk c := by
  have w1 : c ≠ ' ' := by rintro rfl; exact absurd h (by decide)
  have w2 : c ≠ '\t' := by rintro rfl; exact absurd h (by decide)
  have w3 : c ≠ '\n' := by rintro rfl; exact absurd h (by decide)
  have w4 : c ≠ '\r' := by rintro rfl; exact absurd h (by decide)
  refine ⟨?_, ?_, ?_, ?_⟩
  · simp only [isJsonWs, Bool.or_eq_false_iff, beq_eq_false_iff_ne]
    exact ⟨⟨⟨w1, w2⟩, w3⟩, w4⟩
  · rintro rfl; exact absurd h (by decide)
  · rintro rfl; exact absurd h (by decide)
  · rintro rfl; exact absurd h (by decide)

theorem natDigits_head (n : Nat) :
    ∃ c t, natDigits n = c :: t ∧ c.isDigit = true := by
  cases hm : natDigits n with
  | nil => exact absurd hm (natDigits_ne_nil n)
  | cons c t =>
    exact ⟨c, t, rfl, natDigits_digits n c (by rw [hm]; simp)⟩

theorem json_dumps_headOk (v : PyVal) :
    ∃ c t, json_dumps v = c :: t ∧ jsonHeadOk c := by
  cases v with
  | none => exact ⟨'n', _, rfl, by constructor <;> decide⟩
  | bool b =>
    cases b with
    | true => exact ⟨'t', _, rfl, by constructor <;> decide⟩
    | false => exact ⟨'f', _, rfl, by constructor <;> decide⟩
  | int n =>
    show ∃ c t, intRepr n = c :: t ∧ jsonHeadOk c
    unfold intRepr
    by_cases hn : n < 0
    · exact ⟨'-', _, by rw [if_pos hn], by constructor <;> decide⟩
    · rw [if_neg hn]
      obtain ⟨c, t, hct, hd⟩ := natDigits_head n.toNat
      exact ⟨c, t, hct, digit_headOk hd⟩
  | str s => exact ⟨'"', _, rfl, by constructor <;> decide⟩
  | list xs => exact ⟨'[', _, rfl, by constructor <;> decide⟩
  | tuple xs => exact ⟨'[', _, rfl, by constructor <;> decide⟩
  | dict kvs => exact ⟨'\x7b', _, rfl, by constructor <;> decide⟩

theorem skipWs_cons_of {c : Char} (h : isJsonWs c = false) (s : PyStr) :
    skipWs (c :: s) = c :: s := by
  simp [skipWs, List.dropWhile_cons, h]

theorem skipWs_space (s : PyStr) : skipWs (' ' :: s) = skipWs s := by
  simp [skipWs, List.dropWhile_cons, show isJsonWs ' ' = true from by decide]

theorem skipWs_dumps (v : PyVal) (r : PyStr) :
    skipWs (json_dumps v ++ r) = json_dumps v ++ r := by
  obtain ⟨c, t, hct, hok⟩ := json_dumps_headOk v
  rw [hct, List.cons_append, skipWs_cons_of hok.1]

theorem numBoundary_comma (r : PyStr) : numBoundary (',' :: r) := by
  unfold numBoundary; exact ⟨by decide, by decide, by decide, by decide⟩

theorem numBoundary_close (r : PyStr) : numBoundary (']' :: r) := by
  unfold numBoundary; exact ⟨by decide, by decide, by decide, by decide⟩

theorem numBoundary_brace (r : PyStr) : numBoundary ('\x7d' :: r) := by
  unfold numBoundary; exact ⟨by decide, by decide, by decide, by decide⟩

theorem parseValF_int (fuel : Nat) (n : Int) (rest : PyStr) (hb : numBoundary rest) :
    parseValF (fuel + 1) (intRepr n ++ rest) = some (.int n, rest) := by
  unfold intRepr
  by_cases hn : n < 0
  · rw [if_pos hn, List.cons_append]
    have hp := parsePosNumber_natDigits (-n).toNat rest hb
    simp [parseValF, hp]
    omega
  · rw [if_neg hn]
    obtain ⟨c, t, hct, hd⟩ := natDigits_head n.toNat
    have h1 : c ≠ '[' := by rintro rfl; exact absurd hd (by decide)
    have h2 : c ≠ '\x7b' := by rintro rfl; exact absurd hd (by decide)
    have h3 : c ≠ '"' := by rintro rfl; exact absurd hd (by decide)
    have h4 : c ≠ 'n' := by rintro rfl; exact absurd hd (by decide)
    have h5 : c ≠ 't' := by rintro rfl; exact absurd hd (by decide)
    have h6 : c ≠ 'f' := by rintro rfl; exact absurd hd (by decide)
    have h7 : c ≠ '-' := by rintro rfl; exact absurd hd (by decide)
    have hp := parsePosNumber_natDigits n.toNat rest hb
    rw [hct] at hp ⊢
    rw [List.cons_append] at hp ⊢
    simp [parseValF, h1, h2, h3, h4, h5, h6, h7, hd, hp]
    omega

theorem needV_pos (v : PyVal) : 1 ≤ needV v := by
  cases v <;> simp [needV]

theorem jsonDumpElems_decomp (x : PyVal) (xs : List PyVal) :
    ∃ m, jsonDumpElems (x :: xs) = json_dumps x ++ m := by
  cases xs with
  | nil => exact ⟨[], by simp [jsonDumpElems]⟩
  | cons y ys => exact ⟨_, rfl⟩

theorem jsonDumpMembers_head (k : PyStr) (v : PyVal) (kvs : List (PyStr × PyVal)) :
    ∃ t, jsonDumpMembers ((k, v) :: kvs) = '"' :: t := by
  cases kvs with
  | nil =>
    refine ⟨(k.map jsonEscChar).flatten ++ '"' :: ':' :: ' ' :: json_dumps v, ?_⟩
    simp [jsonDumpMembers, jsonDumpStr]
  | cons kv kvs' =>
    refine ⟨(k.map jsonEscChar).flatten ++
      '"' :: ':' :: ' ' :: (json_dumps v ++ ',' :: ' ' :: jsonDumpMembers (kv :: kvs')), ?_⟩
    simp [jsonDumpMembers, jsonDumpStr]

theorem parseValF_arr_nil (f : Nat) (S r : PyStr) (hS : skipWs S = ']' :: r) :
    parseValF (f + 1) ('[' :: S) = some (.list [], r) := by
  simp [parseValF, hS]

theorem parseValF_arr (f : Nat) (S : PyStr) (c0 : Char) (t0 : PyStr)
    (hS : skipWs S = c0 :: t0) (hne : c0 ≠ ']') :
    parseValF (f + 1) ('[' :: S) =
      match parseElemsF f (c0 :: t0) with
      | some (xs, r) => some (.list xs, r)
      | Option.none => Option.none := by
  simp [parseValF, hS, hne]

theorem parseValF_obj_nil (f : Nat) (S r : PyStr) (hS : skipWs S = '\x7d' :: r) :
    parseValF (f + 1) ('\x7b' :: S) = some (.dict [], r) := by
  simp [parseValF, hS]

theorem parseValF_obj (f : Nat) (S : PyStr) (c0 : Char) (t0 : PyStr)
    (hS : skipWs S = c0 :: t0) (hne : c0 ≠ '\x7d') :
    parseValF (f + 1) ('\x7b' :: S) =
      match parseMembersF f (c0 :: t0) with
      | some (kvs, r) => some (.dict kvs, r)
      | Option.none => Option.none := by
  simp [parseValF, hS, hne]

theorem parseValF_strE (f : Nat) (s0 k r : PyStr) (hk : parseStrBodyP s0 = some (k, r)) :
    parseValF (f + 1) ('"' :: s0) = some (.str k, r) := by
  simp [parseValF, hk]

theorem parseElemsF_step_close (f : Nat) (S : PyStr) (v : PyVal) (r1 r2 : PyStr)
    (h1 : parseValF f S = some (v, r1)) (h2 : skipWs r1 = ']' :: r2) :
    parseElemsF (f + 1) S = some ([v], r2) := by
  simp [parseElemsF, h1, h2]

theorem parseElemsF_step_comma (f : Nat) (S : PyStr) (v : PyVal) (r1 r2 : PyStr)
    (h1 : parseValF f S = some (v, r1)) (h2 : skipWs r1 = ',' :: r2) :
    parseElemsF (f + 1) S =
      match parseElemsF f (skipWs r2) with
      | some (xs, r3) => some (v :: xs, r3)
      | Option.none => Option.none := by
  simp [parseElemsF, h1, h2]

theorem parseMembersF_step_close (f : Nat) (s0 k r1 r2 : PyStr) (v : PyVal) (r3 r4 : PyStr)
    (hk : parseStrBodyP s0 = some (k, r1)) (h2 : skipWs r1 = ':' :: r2)
    (hv : parseValF f (skipWs r2) = some (v, r3)) (h4 : skipWs r3 = '\x7d' :: r4) :
    parseMembersF (f + 1) ('"' :: s0) = some ([(k, v)], r4) := by
  simp [parseMembersF, hk, h2, hv, h4]

theorem parseMembersF_step_comma (f : Nat) (s0 k r1 r2 : PyStr) (v : PyVal) (r3 r4 : PyStr)
    (hk : parseStrBodyP s0 = some (k, r1)) (h2 : skipWs r1 = ':' :: r2)
    (hv : parseValF f (skipWs r2) = some (v, r3)) (h4 : skipWs r3 = ',' :: r4) :
    parseMembersF (f + 1) ('"' :: s0) =
      match parseMembersF f (skipWs r4) with
      | some (kvs, r5) => some ((k, v) :: kvs, r5)
      | Option.none => Option.none := by
  simp [parseMembersF, hk, h2, hv, h4]

mutual

theorem parseValF_dumps : ∀ (v : PyVal), noTuple v = true →
    ∀ (fuel : Nat) (rest : PyStr), needV v ≤ fuel → numBoundary rest →
    parseValF fuel (json_dumps v ++ rest) = some (v, rest)
  | .none, _, fuel, rest, hf, _ => by
    obtain ⟨f, rfl⟩ : ∃ f, fuel = f + 1 := ⟨fuel - 1, by have := needV_pos PyVal.none; omega⟩
    have hd : json_dumps PyVal.none = 'n' :: 'u' :: 'l' :: 'l' :: [] := rfl
    rw [hd]
    simp [parseValF, parseLitNull]
  | .bool true, _, fuel, rest, hf, _ => by
    obtain ⟨f, rfl⟩ : ∃ f, fuel = f + 1 :=
      ⟨fuel - 1, by have := needV_pos (PyVal.bool true); omega⟩
    have hd : json_dumps (PyVal.bool true) = 't' :: 'r' :: 'u' :: 'e' :: [] := rfl
    rw [hd]
    simp [parseValF, parseLitTrue]
  | .bool false, _, fuel, rest, hf, _ => by
    obtain ⟨f, rfl⟩ : ∃ f, fuel = f + 1 :=
      ⟨fuel - 1, by have := needV_pos (PyVal.bool false); omega⟩
    have hd : json_dumps (PyVal.bool false) = 'f' :: 'a' :: 'l' :: 's' :: 'e' :: [] := rfl
    rw [hd]
    simp [parseValF, parseLitFalse]
  | .int n, _, fuel, rest, hf, hb => by
    obtain ⟨f, rfl⟩ : ∃ f, fuel = f + 1 := ⟨fuel - 1, by have := needV_pos (PyVal.int n); omega⟩
    exact parseValF_int f n rest hb
  | .str s, _, fuel, rest, hf, _ => by
    obtain ⟨f, rfl⟩ : ∃ f, fuel = f + 1 := ⟨fuel - 1, by have := needV_pos (PyVal.str s); omega⟩
    have hshape : json_dumps (PyVal.str s) ++ rest
        = '"' :: ((s.map jsonEscChar).flatten ++ '"' :: rest) := by
      simp [json_dumps, jsonDumpStr]
    rw [hshape]
    exact parseValF_strE f _ s rest (parseStrBodyP_dumps s rest)
  | .tuple xs, h, _, _, _, _ => by simp [noTuple] at h
  | .list [], _, fuel, rest, hf, _ => by
    obtain ⟨f, rfl⟩ : ∃ f, fuel = f + 1 := ⟨fuel - 1, by have := needV_pos (PyVal.list []); omega⟩
    have hshape : json_dumps (PyVal.list []) ++ rest = '[' :: (']' :: rest) := by
      simp [json_dumps, jsonDumpElems]
    rw [hshape]
    exact parseValF_arr_nil f _ rest (skipWs_cons_of (by decide) rest)
  | .list (x :: xs'), h, fuel, rest, hf, _ => by
    obtain ⟨f, rfl⟩ : ∃ f, fuel = f + 1 :=
      ⟨fuel - 1, by have := needV_pos (PyVal.list (x :: xs')); omega⟩
    have hL : noTupleL (x :: xs') = true := by simpa [noTuple] using h
    have hshape : json_dumps (PyVal.list (x :: xs')) ++ rest
        = '[' :: (jsonDumpElems (x :: xs') ++ ']' :: rest) := by
      simp [json_dumps]
    rw [hshape]
    obtain ⟨m, hm⟩ := jsonDumpElems_decomp x xs'
    obtain ⟨c0, t0, hct, hok⟩ := json_dumps_headOk x
    have hS : skipWs (jsonDumpElems (x :: xs') ++ ']' :: rest)
        = c0 :: (t0 ++ (m ++ ']' :: rest)) := by
      rw [hm, List.append_assoc, skipWs_dumps x, hct]
      simp
    have hcons : (c0 : Char) :: (t0 ++ (m ++ ']' :: rest))
        = jsonDumpElems (x :: xs') ++ ']' :: rest := by
      rw [hm, hct]
      simp
    rw [parseValF_arr f _ c0 _ hS hok.2.1, hcons,
      parseElemsF_dumps (x :: xs') hL (by simp) f rest
        (by simp only [needV] at hf; omega)]
  | .dict [], _, fuel, rest, hf, _ => by
    obtain ⟨f, rfl⟩ : ∃ f, fuel = f + 1 := ⟨fuel - 1, by have := needV_pos (PyVal.dict []); omega⟩
    have hshape : json_dumps (PyVal.dict []) ++ rest = '\x7b' :: ('\x7d' :: rest) := by
      simp [json_dumps, jsonDumpMembers]
    rw [hshape]
    exact parseValF_obj_nil f _ rest (skipWs_cons_of (by decide) rest)
  | .dict ((k, v) :: kvs'), h, fuel, rest, hf, _ => by
    obtain ⟨f, rfl⟩ : ∃ f, fuel = f + 1 :=
      ⟨fuel - 1, by have := needV_pos (PyVal.dict ((k, v) :: kvs')); omega⟩
    have hKV : noTupleKV ((k, v) :: kvs') = true := by simpa [noTuple] using h
    have hshape : json_dumps (PyVal.dict ((k, v) :: kvs')) ++ rest
        = '\x7b' :: (jsonDumpMembers ((k, v) :: kvs') ++ '\x7d' :: rest) := by
      simp [json_dumps]
    rw [hshape]
    obtain ⟨t, ht⟩ := jsonDumpMembers_head k v kvs'
    have hS : skipWs (jsonDumpMembers ((k, v) :: kvs') ++ '\x7d' :: rest)
        = '"' :: (t ++ '\x7d' :: rest) := by
      rw [ht, List.cons_append, skipWs_cons_of (by decide)]
    have hcons : ('"' : Char) :: (t ++ '\x7d' :: rest)
        = jsonDumpMembers ((k, v) :: kvs') ++ '\x7d' :: rest := by
      rw [ht]
      simp
    rw [parseValF_obj f _ '"' _ hS (by decide), hcons,
      parseMembersF_dumps ((k, v) :: kvs') hKV (by simp) f rest
        (by simp only [needV] at hf; omega)]

termination_by v _ _ _ _ _ => sizeOf v
decreasing_by all_goals (subst_vars; simp; try omega)

theorem parseElemsF_dumps : ∀ (xs : List PyVal), noTupleL xs = true → xs ≠ [] →
    ∀ (f : Nat) (rest : PyStr), needL xs ≤ f →
    parseElemsF f (jsonDumpElems xs ++ ']' :: rest) = some (xs, rest)
  | [], _, hne, _, _, _ => absurd rfl hne
  | [x], h, _, f, rest, hf => by
    obtain ⟨f', rfl⟩ : ∃ g, f = g + 1 := ⟨f - 1, by simp only [needL] at hf; omega⟩
    have hx : noTuple x = true := by simpa [noTupleL] using h
    have hdx : jsonDumpElems [x] = json_dumps x := rfl
    rw [hdx]
    have h1 := parseValF_dumps x hx f' (']' :: rest)
      (by simp only [needL] at hf; omega) (numBoundary_close rest)
    exact parseElemsF_step_close f' _ x _ rest h1 (skipWs_cons_of (by decide) _)
  | x :: y :: ys, h, _, f, rest, hf => by
    obtain ⟨f', rfl⟩ : ∃ g, f = g + 1 := ⟨f - 1, by simp only [needL] at hf; omega⟩
    have hx : noTuple x = true := by
      have := h
      simp only [noTupleL, Bool.and_eq_true] at this
      exact this.1
    have hyL : noTupleL (y :: ys) = true := by
      have := h
      simp only [noTupleL, Bool.and_eq_true] at this
      simp only [noTupleL, Bool.and_eq_true]
      exact this.2
    have hshape : jsonDumpElems (x :: y :: ys) ++ ']' :: rest
        = json_dumps x ++ (',' :: (' ' :: (jsonDumpElems (y :: ys) ++ ']' :: rest))) := by
      show (json_dumps x ++ ',' :: ' ' :: jsonDumpElems (y :: ys)) ++ ']' :: rest = _
      simp
    rw [hshape]
    have h1 := parseValF_dumps x hx f'
      (',' :: (' ' :: (jsonDumpElems (y :: ys) ++ ']' :: rest)))
      (by simp only [needL] at hf; omega) (numBoundary_comma _)
    rw [parseElemsF_step_comma f' _ x _ _ h1 (skipWs_cons_of (by decide) _)]
    have hsw : skipWs (' ' :: (jsonDumpElems (y :: ys) ++ ']' :: rest))
        = jsonDumpElems (y :: ys) ++ ']' :: rest := by
      rw [skipWs_space]
      obtain ⟨m, hm⟩ := jsonDumpElems_decomp y ys
      rw [hm, List.append_assoc, skipWs_dumps y, ← List.append_assoc]
    rw [hsw, parseElemsF_dumps (y :: ys) hyL (by simp) f' rest
      (by simp only [needL] at hf ⊢; omega)]

termination_by xs _ _ _ _ => sizeOf xs
decreasing_by all_goals (subst_vars; simp; try omega)

theorem parseMembersF_dumps : ∀ (kvs : List (PyStr × PyVal)), noTupleKV kvs = true →
    kvs ≠ [] → ∀ (f : Nat) (rest : PyStr), needKV kvs ≤ f →
    parseMembersF f (jsonDumpMembers kvs ++ '\x7d' :: rest) = some (kvs, rest)
  | [], _, hne, _, _, _ => absurd rfl hne
  | [(k, v)], h, _, f, rest, hf => by
    obtain ⟨f', rfl⟩ : ∃ g, f = g + 1 := ⟨f - 1, by simp only [needKV] at hf; omega⟩
    have hv : noTuple v = true := by simpa [noTupleKV] using h
    have hshape : jsonDumpMembers [(k, v)] ++ '\x7d' :: rest
        = '"' :: ((k.map jsonEscChar).flatten ++
            '"' :: (':' :: (' ' :: (json_dumps v ++ '\x7d' :: rest)))) := by
      show (jsonDumpStr k ++ ':' :: ' ' :: json_dumps v) ++ '\x7d' :: rest = _
      simp [jsonDumpStr]
    rw [hshape]
    have hk := parseStrBodyP_dumps k (':' :: (' ' :: (json_dumps v ++ '\x7d' :: rest)))
    have hv1 : parseValF f' (skipWs (' ' :: (json_dumps v ++ '\x7d' :: rest)))
        = some (v, '\x7d' :: rest) := by
      rw [skipWs_space, skipWs_dumps]
      exact parseValF_dumps v hv f' _ (by simp only [needKV] at hf; omega)
        (numBoundary_brace rest)
    exact parseMembersF_step_close f' _ k _ _ v _ rest hk
      (skipWs_cons_of (by decide) _) hv1 (skipWs_cons_of (by decide) _)
  | (k, v) :: kv2 :: kvs', h, _, f, rest, hf => by
    obtain ⟨f', rfl⟩ : ∃ g, f = g + 1 := ⟨f - 1, by simp only [needKV] at hf; omega⟩
    have hv : noTuple v = true := by
      have := h
      simp only [noTupleKV, Bool.and_eq_true] at this
      exact this.1
    have hKV2 : noTupleKV (kv2 :: kvs') = true := by
      have := h
      simp only [noTupleKV, Bool.and_eq_true] at this
      obtain ⟨k2, v2⟩ := kv2
      simp only [noTupleKV, Bool.and_eq_true]
      exact this.2
    have hshape : jsonDumpMembers ((k, v) :: kv2 :: kvs') ++ '\x7d' :: rest
        = '"' :: ((k.map jsonEscChar).flatten ++
            '"' :: (':' :: (' ' :: (json_dumps v ++
              ',' :: (' ' :: (jsonDumpMembers (kv2 :: kvs') ++ '\x7d' :: rest)))))) := by
      show (jsonDumpStr k ++ ':' :: ' ' :: json_dumps v ++
        ',' :: ' ' :: jsonDumpMembers (kv2 :: kvs')) ++ '\x7d' :: rest = _
      simp [jsonDumpStr]
    rw [hshape]
    have hk := parseStrBodyP_dumps k
      (':' :: (' ' :: (json_dumps v ++
        ',' :: (' ' :: (jsonDumpMembers (kv2 :: kvs') ++ '\x7d' :: rest)))))
    have hv1 : parseValF f'
        (skipWs (' ' :: (json_dumps v ++
          ',' :: (' ' :: (jsonDumpMembers (kv2 :: kvs') ++ '\x7d' :: rest)))))
        = some (v, ',' :: (' ' :: (jsonDumpMembers (kv2 :: kvs') ++ '\x7d' :: rest))) := by
      rw [skipWs_space, skipWs_dumps]
      exact parseValF_dumps v hv f' _ (by simp only [needKV] at hf; omega)
        (numBoundary_comma _)
    rw [parseMembersF_step_comma f' _ k _ _ v _ _ hk
      (skipWs_cons_of (by decide) _) hv1 (skipWs_cons_of (by decide) _)]
    have hsw : skipWs (' ' :: (jsonDumpMembers (kv2 :: kvs') ++ '\x7d' :: rest))
        = jsonDumpMembers (kv2 :: kvs') ++ '\x7d' :: rest := by
      rw [skipWs_space]
      obtain ⟨k2, v2⟩ := kv2
      obtain ⟨t, ht⟩ := jsonDumpMembers_head k2 v2 kvs'
      rw [ht, List.cons_append, skipWs_cons_of (by decide)]
    rw [hsw, parseMembersF_dumps (kv2 :: kvs') hKV2 (by simp) f' rest
      (by simp only [needKV] at hf ⊢; omega)]
termination_by kvs _ _ _ _ => sizeOf kvs
decreasing_by all_goals (subst_vars; simp; try omega)

end

theorem json_dumps_length_pos (v : PyVal) : 1 ≤ (json_dumps v).length := by
  obtain ⟨c, t, hct, -⟩ := json_dumps_headOk v
  rw [hct]
  simp

mutual

theorem needV_le : ∀ v : PyVal, needV v + 1 ≤ 2 * (json_dumps v).length
  | .none => by
    have := json_dumps_length_pos PyVal.none
    simp only [needV]
    omega
  | .bool b => by
    have := json_dumps_length_pos (PyVal.bool b)
    simp only [needV]
    omega
  | .int n => by
    have := json_dumps_length_pos (PyVal.int n)
    simp only [needV]
    omega
  | .str s => by
    have := json_dumps_length_pos (PyVal.str s)
    simp only [needV]
    omega
  | .tuple xs => by
    have := json_dumps_length_pos (PyVal.tuple xs)
    simp only [needV]
    omega
  | .list [] => by
    have : (json_dumps (PyVal.list [])).length = 2 := rfl
    simp [needV, needL, this]
  | .list (x :: xs') => by
    have h1 := needL_le (x :: xs')
    have hlen : (json_dumps (PyVal.list (x :: xs'))).length
        = (jsonDumpElems (x :: xs')).length + 2 := by
      simp [json_dumps]
    simp only [needV]
    omega
  | .dict [] => by
    have : (json_dumps (PyVal.dict [])).length = 2 := rfl
    simp [needV, needKV, this]
  | .dict (kv :: kvs') => by
    have h1 := needKV_le (kv :: kvs')
    have hlen : (json_dumps (PyVal.dict (kv :: kvs'))).length
        = (jsonDumpMembers (kv :: kvs')).length + 2 := by
      simp [json_dumps]
    simp only [needV]
    omega

theorem needL_le : ∀ xs : List PyVal, needL xs ≤ 2 * (jsonDumpElems xs).length + 2
  | [] => by simp [needL]
  | [x] => by
    have h1 := needV_le x
    have : jsonDumpElems [x] = json_dumps x := rfl
    simp only [needL, needV, this]
    omega
  | x :: y :: ys => by
    have h1 := needV_le x
    have h2 := needL_le (y :: ys)
    have hlen : (jsonDumpElems (x :: y :: ys)).length
        = (json_dumps x).length + 2 + (jsonDumpElems (y :: ys)).length := by
      show (json_dumps x ++ ',' :: ' ' :: jsonDumpElems (y :: ys)).length = _
      simp
      omega
    rw [needL]
    omega

theorem needKV_le : ∀ kvs : List (PyStr × PyVal), needKV kvs ≤ 2 * (jsonDumpMembers kvs).length + 2
  | [] => by simp [needKV]
  | [(k, v)] => by
    have h1 := needV_le v
    have hlen : (jsonDumpMembers [(k, v)]).length
        = (jsonDumpStr k).length + 2 + (json_dumps v).length := by
      show (jsonDumpStr k ++ ':' :: ' ' :: json_dumps v).length = _
      simp
      omega
    have hkv : needKV [(k, v)] = needV v + 2 := by
      rw [needKV, needKV]
      omega
    rw [hkv]
    omega
  | (k, v) :: kv2 :: kvs' => by
    have h1 := needV_le v
    have h2 := needKV_le (kv2 :: kvs')
    have hlen : (jsonDumpMembers ((k, v) :: kv2 :: kvs')).length
        = (jsonDumpStr k).length + 2 + (json_dumps v).length + 2
          + (jsonDumpMembers (kv2 :: kvs')).length := by
      show (jsonDumpStr k ++ ':' :: ' ' :: json_dumps v
        ++ ',' :: ' ' :: jsonDumpMembers (kv2 :: kvs')).length = _
      simp
      omega
    rw [needKV]
    omega

end

theorem json_loads_dumps (v : PyVal) (h : noTuple v = true) :
    json_loads (json_dumps v) = some v := by
  unfold json_loads
  have hsw : skipWs (json_dumps v) = json_dumps v := by
    have h2 := skipWs_dumps v []
    simpa using h2
  rw [hsw]
  have hfuel : needV v ≤ 2 * (json_dumps v).length + 2 := by
    have := needV_le v
    omega
  have h1 : parseValF (2 * (json_dumps v).length + 2) (json_dumps v ++ []) = some (v, []) :=
    parseValF_dumps v h _ [] hfuel (by unfold numBoundary; trivial)
  rw [List.append_nil] at h1
  rw [h1]
  simp [skipWs]

/-! ## Row codec: `Store.encode`, `Store.decode`, `Store.dict2row`,
`Store.row2dict` from `store.py`. -/

/-- A Tablestore `Row`: primary-key pairs plus attribute-column pairs. -/
structure RowS where
  primary_key : List (PyStr × PyVal)
  attribute_columns : List (PyStr × PyVal)
  deriving DecidableEq

namespace Store

/-- `Store.encode`: list/tuple/dict values are JSON-serialised to text,
everything else passes through. -/
def encode : PyVal → PyVal
  | .list xs => .str (json_dumps (.list xs))
  | .tuple xs => .str (json_dumps (.tuple xs))
  | .dict kvs => .str (json_dumps (.dict kvs))
  | v => v

/-- The bracket test of `Store.decode`: the string starts and ends with
matching `[]` or `\x7b\x7d` delimiters. -/
def jsonShaped (s : PyStr) : Prop :=
  (s.head? = some '[' ∧ s.getLast? = some ']') ∨
    (s.head? = some '\x7b' ∧ s.getLast? = some '\x7d')

instance (s : PyStr) : Decidable (jsonShaped s) := by
  unfold jsonShaped
  infer_instance

/-- `Store.decode`: a bracket-delimited string is parsed as JSON; on a parse
error the original string is kept (a warning is logged); any other value
passes through. -/
def decode (v : PyVal) : PyVal :=
  match v with
  | .str s =>
    if jsonShaped s then
      match json_loads s with
      | some j => j
      | Option.none => .str s
    else .str s
  | v => v

/-- The single pass of `Store.dict2row` over `d.items()`: None values are
dropped, primary-key fields keep their value, the rest is encoded. -/
def dict2rowSplit (pks : List PyStr) : PyDict → PyDict × PyDict
  | [] => ([], [])
  | (k, v) :: rest =>
    let r := dict2rowSplit pks rest
    if v = PyVal.none then r
    else if k ∈ pks then ((k, v) :: r.1, r.2)
    else (r.1, (k, encode v) :: r.2)

/-- `Store.dict2row`. -/
def dict2row (pks : List PyStr) (d : PyDict) : RowS :=
  ⟨(dict2rowSplit pks d).1, (dict2rowSplit pks d).2⟩

/-- `Store.row2dict`: every primary-key and attribute pair is decoded into a
fresh dict. -/
def row2dict (row : RowS) : PyDict :=
  (row.primary_key ++ row.attribute_columns).foldl
    (fun d kv => dictSet d kv.1 (decode kv.2)) []

end Store

/-- The keys of a dict, in order. -/
def keysOf (d : PyDict) : List PyStr := d.map (fun kv => kv.1)

theorem dictHas_iff (d : PyDict) (k : PyStr) : dictHas d k = true ↔ k ∈ keysOf d := by
  induction d with
  | nil => simp [dictHas, dictGet, keysOf]
  | cons kv rest ih =>
    obtain ⟨k', v⟩ := kv
    by_cases hk : k' = k
    · subst hk
      simp [dictHas, dictGet, keysOf]
    · simp only [dictHas, dictGet, hk, if_false, keysOf, List.map_cons, List.mem_cons]
      rw [dictHas, keysOf] at ih
      simp [ih, Ne.symm hk]

/-- A value that is not a JSON-shaped string is left alone by `decode`. -/
theorem decode_not_shaped (v : PyVal) (hs : ∀ s, v = .str s → ¬ Store.jsonShaped s) :
    Store.decode v = v := by
  cases v with
  | str s =>
    have := hs s rfl
    simp [Store.decode, this]
  | none => rfl
  | bool b => rfl
  | int n => rfl
  | list xs => rfl
  | tuple xs => rfl
  | dict kvs => rfl

/-- `decode` undoes `encode` on tuple-free values whose string form is not
JSON-shaped. -/
theorem decode_encode (v : PyVal) (hnt : noTuple v = true)
    (hs : ∀ s, v = .str s → ¬ Store.jsonShaped s) :
    Store.decode (Store.encode v) = v := by
  cases v with
  | list xs =>
    have hshaped : Store.jsonShaped (json_dumps (PyVal.list xs)) := by
      left
      constructor
      · show (('[' :: (jsonDumpElems xs ++ [']'])).head? = some '[')
        rfl
      · show (('[' :: (jsonDumpElems xs ++ [']'])).getLast? = some ']')
        rw [show ('[' :: (jsonDumpElems xs ++ [']'])) = ('[' :: jsonDumpElems xs) ++ [']'] by simp]
        exact List.getLast?_concat _
    have hld := json_loads_dumps (PyVal.list xs) hnt
    simp [Store.encode, Store.decode, hshaped, hld]
  | dict kvs =>
    have hshaped : Store.jsonShaped (json_dumps (PyVal.dict kvs)) := by
      right
      constructor
      · rfl
      · show (('\x7b' :: (jsonDumpMembers kvs ++ ['\x7d'])).getLast? = some '\x7d')
        rw [show ('\x7b' :: (jsonDumpMembers kvs ++ ['\x7d']))
          = ('\x7b' :: jsonDumpMembers kvs) ++ ['\x7d'] by simp]
        exact List.getLast?_concat _
    have hld := json_loads_dumps (PyVal.dict kvs) hnt
    simp [Store.encode, Store.decode, hshaped, hld]
  | tuple xs => simp [noTuple] at hnt
  | none => rfl
  | bool b => rfl
  | int n => rfl
  | str s => exact decode_not_shaped (PyVal.str s) hs

theorem foldl_dictSet_fresh (g : PyStr × PyVal → PyVal) :
    ∀ (l : PyDict) (acc : PyDict), (keysOf l).Nodup →
    (∀ k ∈ keysOf l, k ∉ keysOf acc) →
    l.foldl (fun d kv => dictSet d kv.1 (g kv)) acc
      = acc ++ l.map (fun kv => (kv.1, g kv)) := by
  intro l
  induction l with
  | nil => intro acc _ _; simp
  | cons kv rest ih =>
    intro acc hnd hdisj
    obtain ⟨k, v⟩ := kv
    have hk_not : k ∉ keysOf acc := hdisj k (by simp [keysOf])
    have hset : dictSet acc k (g (k, v)) = acc ++ [(k, g (k, v))] := by
      unfold dictSet
      rw [if_neg]
      intro hmem
      exact hk_not ((dictHas_iff acc k).mp hmem)
    have hnd' : (keysOf rest).Nodup := by
      simp only [keysOf, List.map_cons, List.nodup_cons] at hnd
      exact hnd.2
    have hdisj' : ∀ k' ∈ keysOf rest, k' ∉ keysOf (acc ++ [(k, g (k, v))]) := by
      intro k' hk' hmem
      simp only [keysOf, List.map_append, List.mem_append, List.map_cons, List.mem_singleton] at hmem
      rcases hmem with hmem | hmem
      · refine hdisj k' ?_ hmem
        simp only [keysOf, List.map_cons, List.mem_cons]
        exact Or.inr hk'
      · simp only [List.map_nil, List.mem_cons, List.not_mem_nil, or_false] at hmem
        subst hmem
        simp only [keysOf, List.map_cons, List.nodup_cons] at hnd
        exact hnd.1 hk'
    calc ((k, v) :: rest).foldl (fun d kv => dictSet d kv.1 (g kv)) acc
        = rest.foldl (fun d kv => dictSet d kv.1 (g kv)) (acc ++ [(k, g (k, v))]) := by
          simp [List.foldl_cons, hset]
      _ = (acc ++ [(k, g (k, v))]) ++ rest.map (fun kv => (kv.1, g kv)) :=
          ih _ hnd' hdisj'
      _ = acc ++ ((k, v) :: rest).map (fun kv => (kv.1, g kv)) := by simp

theorem dict2rowSplit_eq (pks : List PyStr) (d : PyDict)
    (hnn : ∀ kv ∈ d, kv.2 ≠ PyVal.none) :
    Store.dict2rowSplit pks d =
      (d.filter (fun kv => decide (kv.1 ∈ pks)),
       (d.filter (fun kv => decide (kv.1 ∉ pks))).map (fun kv => (kv.1, Store.encode kv.2))) := by
  induction d with
  | nil => rfl
  | cons kv rest ih =>
    obtain ⟨k, v⟩ := kv
    have hv : v ≠ PyVal.none := hnn (k, v) (by simp)
    have ih' := ih (fun kv hkv => hnn kv (by simp [hkv]))
    unfold Store.dict2rowSplit
    rw [if_neg hv, ih']
    by_cases hk : k ∈ pks
    · simp [hk, List.filter_cons]
    · simp [hk, List.filter_cons]

theorem keysOf_filter (q : PyStr → Bool) (d : PyDict) :
    keysOf (d.filter (fun kv => q kv.1)) = (keysOf d).filter q := by
  induction d with
  | nil => rfl
  | cons kv rest ih =>
    obtain ⟨k, v⟩ := kv
    by_cases hq : q k
    · simp [keysOf, List.filter_cons, hq] at ih ⊢
      exact ih
    · simp [keysOf, List.filter_cons, hq] at ih ⊢
      exact ih

/-- Round trip of the row codec: encoding an attribute dict to a `Row` and
decoding it back yields the same dict up to reordering (primary-key fields
are emitted first, as `row2dict` reads `primary_key` before
`attribute_columns`; Python dict equality ignores order). -/
theorem row2dict_dict2row (pks : List PyStr) (d : PyDict)
    (hkeys : (keysOf d).Nodup)
    (hvals : ∀ kv ∈ d, kv.2 ≠ PyVal.none ∧ noTuple kv.2 = true ∧
      ∀ s, kv.2 = .str s → ¬ Store.jsonShaped s) :
    List.Perm (Store.row2dict (Store.dict2row pks d)) d := by
  have hsplit := dict2rowSplit_eq pks d (fun kv hkv => (hvals kv hkv).1)
  set pfs := d.filter (fun kv => decide (kv.1 ∈ pks)) with hpfs
  set fs := (d.filter (fun kv => decide (kv.1 ∉ pks))).map
    (fun kv => (kv.1, Store.encode kv.2)) with hfs
  have hrow : Store.dict2row pks d = ⟨pfs, fs⟩ := by
    unfold Store.dict2row
    rw [hsplit]
  -- keys of pfs ++ fs form a permutation of the keys of d, hence are nodup
  have hkperm : List.Perm (keysOf (pfs ++ fs)) (keysOf d) := by
    have h1 : keysOf (pfs ++ fs) = (keysOf d).filter (fun k => decide (k ∈ pks))
        ++ (keysOf d).filter (fun k => decide (k ∉ pks)) := by
      simp only [keysOf, List.map_append, hpfs, hfs, List.map_map]
      congr 1
      · exact keysOf_filter (fun k => decide (k ∈ pks)) d
      · show ((d.filter (fun kv => decide (kv.1 ∉ pks))).map
          ((fun (kv : PyStr × PyVal) => kv.1) ∘
            (fun (kv : PyStr × PyVal) => (kv.1, Store.encode kv.2)))) = _
        have hcomp : ((fun (kv : PyStr × PyVal) => kv.1) ∘
            (fun (kv : PyStr × PyVal) => (kv.1, Store.encode kv.2)))
            = fun (kv : PyStr × PyVal) => kv.1 := rfl
        rw [hcomp]
        exact keysOf_filter (fun k => decide (k ∉ pks)) d
    rw [h1]
    have := List.filter_append_perm (fun k => decide (k ∈ pks)) (keysOf d)
    simpa using this
  have hnodup : (keysOf (pfs ++ fs)).Nodup := hkperm.symm.nodup hkeys
  have hfold := foldl_dictSet_fresh (fun kv => Store.decode kv.2) (pfs ++ fs) [] hnodup
    (by intro k _ hmem; simp [keysOf] at hmem)
  rw [hrow]
  unfold Store.row2dict
  simp only at hfold
  rw [hfold, List.nil_append]
  -- collapse the decode over each part
  have hpfs_map : pfs.map (fun kv => (kv.1, Store.decode kv.2)) = pfs := by
    have : ∀ kv ∈ pfs, (kv.1, Store.decode kv.2) = kv := by
      intro kv hkv
      have hmem : kv ∈ d := List.mem_of_mem_filter hkv
      obtain ⟨-, -, hshape⟩ := hvals kv hmem
      rw [decode_not_shaped kv.2 hshape]
    calc pfs.map (fun kv => (kv.1, Store.decode kv.2)) = pfs.map id :=
        List.map_congr_left this
      _ = pfs := List.map_id pfs
  have hfs_map : fs.map (fun kv => (kv.1, Store.decode kv.2))
      = d.filter (fun kv => decide (kv.1 ∉ pks)) := by
    rw [hfs, List.map_map]
    have : ∀ kv ∈ d.filter (fun kv => decide (kv.1 ∉ pks)),
        ((fun kv => (kv.1, Store.decode kv.2)) ∘ (fun kv => (kv.1, Store.encode kv.2))) kv
          = id kv := by
      intro kv hkv
      have hmem : kv ∈ d := List.mem_of_mem_filter hkv
      obtain ⟨-, hnt, hshape⟩ := hvals kv hmem
      show (kv.1, Store.decode (Store.encode kv.2)) = kv
      rw [decode_encode kv.2 hnt hshape]
    calc (d.filter (fun kv => decide (kv.1 ∉ pks))).map
          ((fun kv => (kv.1, Store.decode kv.2)) ∘ (fun kv => (kv.1, Store.encode kv.2)))
        = (d.filter (fun kv => decide (kv.1 ∉ pks))).map id := List.map_congr_left this
      _ = _ := List.map_id _
  rw [List.map_append, hpfs_map, hfs_map, hpfs]
  have := List.filter_append_perm (fun kv : PyStr × PyVal => decide (kv.1 ∈ pks)) d
  simpa using this

/-! ## Predicate compiler: `build_tablestore_query` from `lookup.py` -/

/-- The query nodes of the Tablestore search index that
`build_tablestore_query` can construct. -/
inductive Query where
  | matchAll
  | term (field : PyStr) (value : PyVal)
  | terms (field : PyStr) (values : List PyVal)
  | range (field : PyStr) (gt gte lt lte : Option PyVal)
  | wildcard (field : PyStr) (pattern : PyStr)
  | existsQ (field : PyStr)
  | boolQ (must : List Query) (should : List Query) (minimumShouldMatch : Option Nat)
      (mustNot : List Query)

mutual

/-- Structural equality on `Query`. -/
def qBeq : Query → Query → Bool
  | .matchAll, .matchAll => true
  | .term f v, .term f' v' => f == f' && v == v'
  | .terms f vs, .terms f' vs' => f == f' && vs == vs'
  | .range f a b c d, .range f' a' b' c' d' =>
    f == f' && a == a' && b == b' && c == c' && d == d'
  | .wildcard f p, .wildcard f' p' => f == f' && p == p'
  | .existsQ f, .existsQ f' => f == f'
  | .boolQ m sh mm mn, .boolQ m' sh' mm' mn' =>
    qBeqL m m' && qBeqL sh sh' && mm == mm' && qBeqL mn mn'
  | _, _ => false

/-- Elementwise structural equality on `Query` lists. -/
def qBeqL : List Query → List Query → Bool
  | [], [] => true
  | a :: as', b :: bs' => qBeq a b && qBeqL as' bs'
  | _, _ => false

end

mutual

theorem qBeq_iff : ∀ a b : Query, qBeq a b = true ↔ a = b
  | .matchAll, .matchAll => by simp [qBeq]
  | .term _ _, .term _ _ => by simp [qBeq]
  | .terms _ _, .terms _ _ => by simp [qBeq]
  | .range _ _ _ _ _, .range _ _ _ _ _ => by simp [qBeq, and_assoc]
  | .wildcard _ _, .wildcard _ _ => by simp [qBeq]
  | .existsQ _, .existsQ _ => by simp [qBeq]
  | .boolQ m sh mm mn, .boolQ m' sh' mm' mn' => by
    simp [qBeq, qBeqL_iff m m', qBeqL_iff sh sh', qBeqL_iff mn mn', and_assoc]
  | .matchAll, .term _ _ | .matchAll, .terms _ _ | .matchAll, .range _ _ _ _ _
  | .matchAll, .wildcard _ _ | .matchAll, .existsQ _ | .matchAll, .boolQ _ _ _ _
  | .term _ _, .matchAll | .term _ _, .terms _ _ | .term _ _, .range _ _ _ _ _
  | .term _ _, .wildcard _ _ | .term _ _, .existsQ _ | .term _ _, .boolQ _ _ _ _
  | .terms _ _, .matchAll | .terms _ _, .term _ _ | .terms _ _, .range _ _ _ _ _
  | .terms _ _, .wildcard _ _ | .terms _ _, .existsQ _ | .terms _ _, .boolQ _ _ _ _
  | .range _ _ _ _ _, .matchAll | .range _ _ _ _ _, .term _ _ | .range _ _ _ _ _, .terms _ _
  | .range _ _ _ _ _, .wildcard _ _ | .range _ _ _ _ _, .existsQ _
  | .range _ _ _ _ _, .boolQ _ _ _ _
  | .wildcard _ _, .matchAll | .wildcard _ _, .term _ _ | .wildcard _ _, .terms _ _
  | .wildcard _ _, .range _ _ _ _ _ | .wildcard _ _, .existsQ _ | .wildcard _ _, .boolQ _ _ _ _
  | .existsQ _, .matchAll | .existsQ _, .term _ _ | .existsQ _, .terms _ _
  | .existsQ _, .range _ _ _ _ _ | .existsQ _, .wildcard _ _ | .existsQ _, .boolQ _ _ _ _
  | .boolQ _ _ _ _, .matchAll | .boolQ _ _ _ _, .term _ _ | .boolQ _ _ _ _, .terms _ _
  | .boolQ _ _ _ _, .range _ _ _ _ _ | .boolQ _ _ _ _, .wildcard _ _
  | .boolQ _ _ _ _, .existsQ _ => by simp [qBeq]

theorem qBeqL_iff : ∀ a b : List Query, qBeqL a b = true ↔ a = b
  | [], [] => by simp [qBeqL]
  | x :: xs, y :: ys => by simp [qBeqL, qBeq_iff x y, qBeqL_iff xs ys]
  | [], _ :: _ => by simp [qBeqL]
  | _ :: _, [] => by simp [qBeqL]

end

instance : DecidableEq Query := fun a b => decidable_of_iff _ (qBeq_iff a b)

/-- `ensure_list`: None becomes empty, lists/tuples stay, scalars are
wrapped. -/
def ensure_list : PyVal → List PyVal
  | .none => []
  | .list xs => xs
  | .tuple xs => xs
  | v => [v]

/-- Python `key.split('__')`. -/
def splitDunder : PyStr → List PyStr
  | [] => [[]]
  | '_' :: '_' :: rest => [] :: splitDunder rest
  | c :: rest =>
    match splitDunder rest with
    | [] => [[c]]
    | p :: ps => (c :: p) :: ps

/-- Python `str.strip()`. -/
def pyStrip (s : PyStr) : PyStr :=
  ((s.dropWhile Char.isWhitespace).reverse.dropWhile Char.isWhitespace).reverse

/-- Python `str.replace(a, b)` for single characters. -/
def pyReplaceChar (a b : Char) (s : PyStr) : PyStr :=
  s.map (fun c => if c = a then b else c)

mutual

/-- Python `repr` for the values of this model (string quoting inside
container reprs is simplified: embedded quotes are not escaped, which no
code path of this development depends on). -/
def pyRepr : PyVal → PyStr
  | .str s => '\'' :: s ++ ['\'']
  | .int n => intRepr n
  | .bool b => if b then pys "True" else pys "False"
  | .none => pys "None"
  | .list xs => '[' :: pyReprElems xs ++ [']']
  | .tuple [x] => '(' :: pyRepr x ++ [',', ')']
  | .tuple xs => '(' :: pyReprElems xs ++ [')']
  | .dict kvs => '\x7b' :: pyReprMembers kvs ++ ['\x7d']

/-- Comma-separated element reprs. -/
def pyReprElems : List PyVal → PyStr
  | [] => []
  | [x] => pyRepr x
  | x :: xs => pyRepr x ++ ',' :: ' ' :: pyReprElems xs

/-- Comma-separated member reprs. -/
def pyReprMembers : List (PyStr × PyVal) → PyStr
  | [] => []
  | [(k, v)] => pyRepr (.str k) ++ ':' :: ' ' :: pyRepr v
  | (k, v) :: kvs => pyRepr (.str k) ++ ':' :: ' ' :: pyRepr v ++ ',' :: ' ' :: pyReprMembers kvs

end

/-- Python `str(v)`. -/
def pyStrOf : PyVal → PyStr
  | .str s => s
  | v => pyRepr v

/-- Python `==` between a filter value and the literals of the `exists`
false-list: equality with the bool/int coercion (`0 == False` is true). -/
def pyEqB : PyVal → PyVal → Bool
  | .bool a, .int n => ((if a then (1 : Int) else 0) == n)
  | .int n, .bool a => (n == (if a then (1 : Int) else 0))
  | a, b => pyBeq a b

/-- The pattern of a `search`-key `Wildcard` clause: strip, `%`→`*`,
`_`→`?`, and a trailing `*` when the pattern does not already end in
`*`. -/
def searchPattern (sv : PyStr) : PyStr :=
  let pattern := pyReplaceChar '_' '?' (pyReplaceChar '%' '*' (pyStrip sv))
  if pattern.getLast? = some '*' then pattern else pattern ++ ['*']

/-- The pattern of a `regex`/`wildcard` operator clause: `str()`, `%`→`*`,
`_`→`?`, and a trailing `*` when the pattern contains neither `*` nor
`?`. -/
def opWildcardPattern (value : PyVal) : PyStr :=
  let pattern := pyReplaceChar '_' '?' (pyReplaceChar '%' '*' (pyStrOf value))
  if pattern.contains '*' || pattern.contains '?' then pattern else pattern ++ ['*']

/-- Python `base_field.endswith('.not')`. -/
def endsDotNot (s : PyStr) : Bool := (pys ".not").isSuffixOf s

/-- The whitelist check `fields and base_field not in fields` (an empty
whitelist is falsy and admits everything). -/
def fieldAllowed (fields : Option (List PyStr)) (f : PyStr) : Bool :=
  match fields with
  | some [] => true
  | some fs => f ∈ fs
  | Option.none => true

/-- One iteration of the field loop of `build_tablestore_query` on a
non-`search` entry: yields the compiled query and its `must_not` flag, or
nothing when the entry is dropped (whitelist miss, converter failure, or an
empty `in`/`nin` list). -/
def processEntry (field_types : PyStr → Option (PyVal → Option PyVal))
    (fields : Option (List PyStr)) (key : PyStr) (value : PyVal) :
    Option (Query × Bool) :=
  let parts := splitDunder key
  let base_field0 := parts.headD []
  let op := if parts.length > 1 then parts.getLastD [] else pys "eq"
  if fieldAllowed fields base_field0 = false then Option.none
  else
    let conv : Option PyVal :=
      match value with
      | .dict _ => some value
      | _ =>
        match field_types base_field0 with
        | some f => f value
        | Option.none => some value
    match conv with
    | Option.none => Option.none
    | some value =>
      let isNot := endsDotNot base_field0
      let base_field := if isNot then base_field0.take (base_field0.length - 4) else base_field0
      if op = pys "eq" then some (.term base_field value, isNot)
      else if op = pys "ne" then some (.term base_field value, true)
      else if op = pys "in" then
        match ensure_list value with
        | [] => Option.none
        | vl => some (.terms base_field vl, isNot)
      else if op = pys "nin" then
        match ensure_list value with
        | [] => Option.none
        | vl => some (.terms base_field vl, true)
      else if op = pys "gt" then some (.range base_field (some value) Option.none Option.none Option.none, isNot)
      else if op = pys "gte" then some (.range base_field Option.none (some value) Option.none Option.none, isNot)
      else if op = pys "lt" then some (.range base_field Option.none Option.none (some value) Option.none, isNot)
      else if op = pys "lte" then some (.range base_field Option.none Option.none Option.none (some value), isNot)
      else if op = pys "regex" ∨ op = pys "wildcard" then
        some (.wildcard base_field (opWildcardPattern value), isNot)
      else if op = pys "exists" then
        let existsFlag := ¬ (pyEqB value (.str (pys "0")) ∨ pyEqB value (.str (pys "false"))
          ∨ pyEqB value (.bool false) ∨ pyEqB value (.str (pys "False")))
        some (.existsQ base_field, if existsFlag then isNot else true)
      else some (.term base_field value, isNot)

/-- The `should` clauses built from the reserved `search` key. -/
def searchClauses (data : PyDict) (fields : Option (List PyStr))
    (search_fields : List PyStr) : List Query :=
  if search_fields ≠ [] then
    match dictGet data (pys "search") with
    | some (.str sv) =>
      if sv ≠ [] ∧ pyStrip sv ≠ [] then
        (search_fields.filter (fun fn => fieldAllowed fields fn)).map
          (fun fn => Query.wildcard fn (searchPattern sv))
      else []
    | _ => []
  else []

/-- `build_tablestore_query(data, field_types, fields, search_fields)`. -/
def build_tablestore_query (data : Option PyDict)
    (field_types : PyStr → Option (PyVal → Option PyVal))
    (fields : Option (List PyStr)) (search_fields : List PyStr) : Query :=
  match data with
  | Option.none => .matchAll
  | some d =>
    if d = [] then .matchAll
    else
      let should_queries := searchClauses d fields search_fields
      let step := d.foldl
        (fun (acc : List Query × List Query) kv =>
          if kv.1 = pys "search" then acc
          else
            match processEntry field_types fields kv.1 kv.2 with
            | some (q, true) => (acc.1, acc.2 ++ [q])
            | some (q, false) => (acc.1 ++ [q], acc.2)
            | Option.none => acc)
        ([], [])
      let must_queries := step.1
      let must_not_queries := step.2
      if must_queries = [] ∧ should_queries = [] ∧ must_not_queries = [] then .matchAll
      else if must_queries.length = 1 ∧ should_queries = [] ∧ must_not_queries = [] then
        must_queries.headD .matchAll
      else
        .boolQ must_queries should_queries
          (if should_queries ≠ [] then some 1 else Option.none) must_not_queries

/-! ## `Store.search`: pagination, bounds, and response assembly -/

/-- `ColumnsToGet` return modes used by `store.py`. -/
inductive ColumnsToGetS where
  | all
  | specified (names : List PyStr)
  | noneCols
  deriving DecidableEq

/-- `Store._get_sort`: `None` when no sort fields (None or empty list),
otherwise the ordered field/direction pairs. -/
def get_sort (sort_fields : Option (List (PyStr × Int))) : Option (List (PyStr × Int)) :=
  match sort_fields with
  | Option.none => Option.none
  | some [] => Option.none
  | some l => some l

/-- The `SearchQuery` plus `ColumnsToGet` that `Store.search` sends to the
backend. -/
structure SearchRequest where
  query : Query
  sort : Option (List (PyStr × Int))
  get_total_count : Bool
  limit : Int
  offset : Option Int
  next_token : Option PyStr
  columns_to_get : ColumnsToGetS
  deriving DecidableEq

/-- `Store.MAX_OFFSET`. -/
def MAX_OFFSET : Int := 10000

/-- The `ValueError` message for an out-of-range page number.  Python `//`
is floor division; `page_size` is at least 1 here and `MAX_OFFSET` is
positive, so Lean's `Int` division agrees. -/
def pageTooLargeMsg (page_size : Int) : PyStr :=
  pys "Page number too large. Max allowed page_no is "
    ++ intRepr (MAX_OFFSET / page_size + 1)
    ++ pys " (offset <= " ++ intRepr MAX_OFFSET ++ pys ")"

/-- Everything `Store.search` has computed by the time it issues the
network call. -/
structure PreparedSearch where
  req : SearchRequest
  page_size : Int
  page_no : Option Int
  offset : Option Int
  token_mode : Bool
  deriving DecidableEq

/-- The pure prefix of `Store.search` (store.py lines 160–203): page-size
default, query compilation, `page_no`/`next_token` exclusivity, offset
computation and bound check, column selection.  An `Except.error` is a
`ValueError` raised before any network call. -/
def Store.searchPrepare (query : Option PyDict) (columns : Option (List PyStr))
    (sort_fields : Option (List (PyStr × Int))) (page_no : Option Int) (page_size : Int)
    (next_token : Option PyStr) (max_page_no_limit : Bool) :
    Except PyStr PreparedSearch :=
  let page_size := if page_size < 1 then 10 else page_size
  let q := build_tablestore_query query (fun _ => Option.none) Option.none []
  let sort := get_sort sort_fields
  if page_no.isSome ∧ next_token.isSome then
    .error (pys "Cannot use both page_no and token")
  else
    let cols : ColumnsToGetS :=
      match columns with
      | some (c :: cs) => .specified (c :: cs)
      | _ => .all
    match next_token with
    | some tok =>
      .ok ⟨⟨q, sort, true, page_size, Option.none, some tok, cols⟩,
        page_size, Option.none, Option.none, true⟩
    | Option.none =>
      let p0 : Int := match page_no with | Option.none => 1 | some p => p
      let p : Int := if p0 < 1 then 1 else p0
      let offset := (p - 1) * page_size
      if max_page_no_limit ∧ offset > MAX_OFFSET then
        .error (pageTooLargeMsg page_size)
      else
        .ok ⟨⟨q, sort, true, page_size, some offset, Option.none, cols⟩,
          page_size, some p, some offset, false⟩

/-- A backend search response: rows, total count, continuation token. -/
structure SearchRS where
  rows : List RowS
  total_count : Nat
  next_token : Option PyStr

/-- The result dict assembled by `Store.search`.  `has_prev`/`has_next` are
`Option` because those keys only exist in page-number mode. -/
structure SearchResultS where
  items : List PyDict
  total : Nat
  page_size : Int
  next_token : Option PyStr
  has_more : Bool
  total_pages : Nat
  page_no : Option Int
  has_prev : Option Bool
  has_next : Option Bool
  can_jump_to_page : Bool

/-- Python truthiness of a continuation token (`None` and `b''` are
falsy). -/
def tokenTruthy : Option PyStr → Bool
  | Option.none => false
  | some t => t ≠ []

/-- The response assembly of `Store.search` (lines 214–242).  `math.ceil`
over exact rationals; the float rounding of CPython is not modelled. -/
def Store.searchAssemble (prep : PreparedSearch) (rs : SearchRS) : SearchResultS :=
  let items := rs.rows.map Store.row2dict
  let total := rs.total_count
  let ps := prep.page_size.toNat
  let total_pages := if total > 0 then (total + ps - 1) / ps else 1
  if prep.token_mode = false then
    { items := items, total := total, page_size := prep.page_size,
      next_token := rs.next_token, has_more := tokenTruthy rs.next_token,
      total_pages := total_pages, page_no := prep.page_no,
      has_prev := some (decide (1 < prep.page_no.getD 1)),
      has_next := some (decide (prep.page_no.getD 1 < (total_pages : Int))),
      can_jump_to_page := decide (prep.offset.getD 0 ≤ MAX_OFFSET) }
  else
    { items := items, total := total, page_size := prep.page_size,
      next_token := rs.next_token, has_more := tokenTruthy rs.next_token,
      total_pages := total_pages, page_no := Option.none,
      has_prev := Option.none, has_next := Option.none,
      can_jump_to_page := false }

/-- `Store.search` with the backend passed in as a function from request to
response. -/
def Store.search (query : Option PyDict) (columns : Option (List PyStr))
    (sort_fields : Option (List (PyStr × Int))) (page_no : Option Int) (page_size : Int)
    (next_token : Option PyStr) (max_page_no_limit : Bool)
    (backend : SearchRequest → SearchRS) : Except PyStr SearchResultS :=
  match Store.searchPrepare query columns sort_fields page_no page_size next_token
      max_page_no_limit with
  | .error e => .error e
  | .ok prep => .ok (Store.searchAssemble prep (backend prep.req))

/-! ## `Store.upsert`: conditional insert with fallback partial update -/

/-- `RowExistenceExpectation` values used by `store.py`. -/
inductive RowExistence where
  | EXPECT_NOT_EXIST
  | IGNORE
  deriving DecidableEq

/-- The outcome of the backend `put_row` call, at the boundary the spec
gives for the store (`putRow -> ack | preconditionFailedError`):
either the write is acknowledged, or the expect-row-absent precondition
failed because the row already exists, or some other service error was
raised.  The code under verification looks only at the error's `message`
string. -/
inductive PutRowError where
  | preconditionFailed (message : PyStr)
  | serviceError (message : PyStr)
  deriving DecidableEq

/-- The `message` attribute of the `OTSServiceError`. -/
def PutRowError.msg : PutRowError → PyStr
  | .preconditionFailed m => m
  | .serviceError m => m

/-- Generic association-list `get` (Python dict lookup). -/
def alistGet {α : Type} : List (PyStr × α) → PyStr → Option α
  | [], _ => Option.none
  | (k', v) :: rest, k => if k' = k then some v else alistGet rest k

/-- Generic association-list `d[k] = v`. -/
def alistSet {α : Type} (l : List (PyStr × α)) (k : PyStr) (v : α) : List (PyStr × α) :=
  if (alistGet l k).isSome then l.map (fun kv => if kv.1 = k then (k, v) else kv)
  else l ++ [(k, v)]

/-- What a call to `Store.upsert` did, given the backend's `put_row`
outcome: raised `ValueError` on a missing primary-key field, inserted (the
`put_row` succeeded with `EXPECT_NOT_EXIST`), re-raised the backend error,
fell through but had no actions to update with (returns `None`), or issued
one `update_row` with `IGNORE`.  Each outcome also records the final state
of the caller's `put` dict, which `upsert` mutates in place. -/
inductive UpsertOutcome where
  | missingPk (message : PyStr) (finalPut : PyDict)
  | inserted (row : RowS) (cond : RowExistence) (finalPut : PyDict)
  | insertRaised (e : PutRowError) (finalPut : PyDict)
  | noUpdate (finalPut : PyDict)
  | updated (primary_key : List (PyStr × PyVal))
      (actions : List (PyStr × List (PyStr × PyVal))) (cond : RowExistence)
      (finalPut : PyDict)
  deriving DecidableEq

/-- The message checked by upsert's `except` clause. -/
def dupColMsgStart : PyStr := pys "Duplicated attribute column name"

/-- The primary-key loop of `Store.upsert` (lines 83–89): validates each
primary-key field is present in `cond`, pops it from `put`, and collects
the primary-key pairs.  On a missing field the `ValueError` is raised
after the earlier fields were already popped. -/
def pkLoop : List PyStr → PyDict → PyDict → List (PyStr × PyVal) →
    Except (PyStr × PyDict) (List (PyStr × PyVal) × PyDict)
  | [], _, put, acc => .ok (acc, put)
  | k :: rest, cond, put, acc =>
    if dictHas cond k = false then
      .error (pys "Missing primary key field: " ++ k, put)
    else
      let put' := if dictHas put k then dictPop put k else put
      pkLoop rest cond put' (acc ++ [(k, (dictGet cond k).getD PyVal.none)])

/-- `insert_attrs = {**cond, **set_on_insert, **put}` plus the `increment`
values when given. -/
def buildInsertAttrs (cond set_on_insert put : PyDict)
    (kwargs : List (PyStr × PyDict)) : PyDict :=
  let insert_attrs := dictUpdate (dictUpdate (dictUpdate [] cond) set_on_insert) put
  match alistGet kwargs (pys "increment") with
  | some inc => dictUpdate insert_attrs inc
  | Option.none => insert_attrs

/-- `attribute_columns.setdefault('put', []).append((k, v))`. -/
def setdefaultAppendPut (acc : List (PyStr × List (PyStr × PyVal))) (k : PyStr)
    (v : PyVal) : List (PyStr × List (PyStr × PyVal)) :=
  match alistGet acc (pys "put") with
  | some dl => alistSet acc (pys "put") (dl ++ [(k, v)])
  | Option.none => acc ++ [(pys "put", [(k, v)])]

/-- The update-action map of the fallback branch (lines 108–120).
`dict(put=put, **kwargs)` rejects a second `put` key in Python, so the
items are `put` followed by the kwargs in order; a Python dict is modelled
as its items list, so `list(dl.items())` (for `put`/`increment`) and `dl`
itself (any other action) are the same value here. -/
def buildUpdateActions (put : PyDict) (kwargs : List (PyStr × PyDict)) (cond : PyDict)
    (pks : List PyStr) : List (PyStr × List (PyStr × PyVal)) :=
  let base := ((pys "put", put) :: kwargs).foldl
    (fun (acc : List (PyStr × List (PyStr × PyVal))) av =>
      if av.2 = [] then acc else alistSet acc av.1 av.2) []
  cond.foldl
    (fun acc kv => if kv.1 ∈ pks then acc else setdefaultAppendPut acc kv.1 kv.2) base

/-- `Store.upsert(cond, put, set_on_insert, **kwargs)` with the backend's
`put_row` outcome supplied as an argument (the update call, when reached,
always makes it to the backend; its acknowledgment is returned as is and
not modelled). -/
def Store.upsert (pks : List PyStr) (cond put set_on_insert : PyDict)
    (kwargs : List (PyStr × PyDict)) (putRowResult : Except PutRowError Unit) :
    UpsertOutcome :=
  match pkLoop pks cond put [] with
  | .error (msg, put') => .missingPk msg put'
  | .ok (primary_key, put') =>
    let insert_attrs := buildInsertAttrs cond set_on_insert put' kwargs
    let row : RowS := ⟨primary_key, insert_attrs⟩
    match putRowResult with
    | .ok _ => .inserted row .EXPECT_NOT_EXIST put'
    | .error e =>
      if dupColMsgStart.isPrefixOf e.msg then
        let attribute_columns := buildUpdateActions put' kwargs cond pks
        if attribute_columns = [] then .noUpdate put'
        else .updated primary_key attribute_columns .IGNORE put'
      else .insertRaised e put'

/-! ## `Store.all`: full-table scan -/

/-- A primary-key cell in a range request: the sentinels or a value. -/
inductive PKVal where
  | INF_MIN
  | INF_MAX
  | val (v : PyVal)
  deriving DecidableEq

/-- Scan direction. -/
inductive DirectionS where
  | FORWARD
  | BACKWARD
  deriving DecidableEq

/-- A `get_range` request as issued by `Store.all`. -/
structure RangeRequest where
  direction : DirectionS
  inclusive_start_primary_key : List (PyStr × PKVal)
  exclusive_end_primary_key : List (PyStr × PKVal)
  max_version : Int
  limit : Int
  columns_to_get : Option (List PyStr)
  deriving DecidableEq

/-- A backend `get_range` response. -/
structure RangeResponse where
  next_start_pk : Option (List (PyStr × PKVal))
  rows : List RowS

/-- Why the scan loop stopped: an empty batch, a falsy continuation key
(`None` or `[]`), or the response script ran out while the loop would have
continued. -/
inductive ScanStop where
  | emptyRows
  | noNext
  | noResponse
  deriving DecidableEq

/-- The request `Store.all` issues for a given start key. -/
def mkRangeReq (pks : List PyStr) (batch_size : Int) (columns : Option (List PyStr))
    (start_pk : List (PyStr × PKVal)) : RangeRequest :=
  ⟨.FORWARD, start_pk, pks.map (fun pk => (pk, PKVal.INF_MAX)), 1, batch_size, columns⟩

/-- The `while True` loop of `Store.all`, driven by a script of backend
responses (one per request).  Returns the requests issued, the decoded
rows yielded, and the stop reason. -/
def Store.scanLoop (pks : List PyStr) (batch_size : Int) (columns : Option (List PyStr)) :
    List (PyStr × PKVal) → List RangeResponse →
    List RangeRequest × List PyDict × ScanStop
  | start_pk, [] => ([mkRangeReq pks batch_size columns start_pk], [], .noResponse)
  | start_pk, r :: script =>
    let req := mkRangeReq pks batch_size columns start_pk
    if r.rows = [] then ([req], [], .emptyRows)
    else
      let items := r.rows.map Store.row2dict
      match r.next_start_pk with
      | Option.none => ([req], items, .noNext)
      | some nxt =>
        if nxt = [] then ([req], items, .noNext)
        else
          let rest := Store.scanLoop pks batch_size columns nxt script
          (req :: rest.1, items ++ rest.2.1, rest.2.2)

/-- `Store.all(batch_size, columns)`: clamp the batch size to `[1, 500]`
(a non-positive value becomes the default 100) and scan from the
minimum-sentinel start key. -/
def Store.all (pks : List PyStr) (batch_size : Int) (columns : Option (List PyStr))
    (script : List RangeResponse) : List RangeRequest × List PyDict × ScanStop :=
  let batch_size := if batch_size < 1 then 100 else batch_size
  let batch_size := if batch_size > 500 then 500 else batch_size
  Store.scanLoop pks batch_size columns (pks.map (fun pk => (pk, PKVal.INF_MIN))) script

/-! ## Claims -/

/-- C5: supplying both a page number and a continuation token makes `search`
raise the invalid-argument `ValueError` "Cannot use both page_no and token";
the result does not depend on the backend, so no search request is
issued. -/
theorem C5_page_no_token_exclusive (query : Option PyDict) (columns : Option (List PyStr))
    (sort_fields : Option (List (PyStr × Int))) (p : Int) (page_size : Int) (tok : PyStr)
    (max_page_no_limit : Bool) (backend : SearchRequest → SearchRS) :
    Store.search query columns sort_fields (some p) page_size (some tok) max_page_no_limit
        backend
      = .error (pys "Cannot use both page_no and token") := by
  simp [Store.search, Store.searchPrepare]

/-- C4: in page-number mode with the offset bound enforced, `search` uses
`offset = (page_no - 1) * page_size`; a call with `offset ≤ MAX_OFFSET`
proceeds (the request carries that offset), and a call with
`offset > MAX_OFFSET` raises, before the backend is consulted, a
`ValueError` whose message renders `MAX_OFFSET // page_size + 1` as the
largest allowed page number. -/
theorem C4_offset_bound (query : Option PyDict) (columns : Option (List PyStr))
    (sort_fields : Option (List (PyStr × Int))) (p page_size : Int)
    (backend : SearchRequest → SearchRS) (hp : 1 ≤ p) (hps : 1 ≤ page_size) :
    ((p - 1) * page_size ≤ MAX_OFFSET →
      ∃ prep, Store.searchPrepare query columns sort_fields (some p) page_size Option.none true
          = .ok prep
        ∧ prep.req.offset = some ((p - 1) * page_size)
        ∧ Store.search query columns sort_fields (some p) page_size Option.none true backend
            = .ok (Store.searchAssemble prep (backend prep.req)))
    ∧ (MAX_OFFSET < (p - 1) * page_size →
      Store.search query columns sort_fields (some p) page_size Option.none true backend
        = .error (pys "Page number too large. Max allowed page_no is "
            ++ intRepr (MAX_OFFSET / page_size + 1)
            ++ pys " (offset <= " ++ intRepr MAX_OFFSET ++ pys ")")) := by
  have hclamp : ¬ page_size < 1 := by omega
  have hfloor : ¬ p < 1 := by omega
  constructor
  · intro hle
    have hprep : Store.searchPrepare query columns sort_fields (some p) page_size Option.none
        true = .ok ⟨⟨build_tablestore_query query (fun _ => Option.none) Option.none [],
          get_sort sort_fields, true, page_size, some ((p - 1) * page_size), Option.none,
          (match columns with
            | some (c :: cs) => ColumnsToGetS.specified (c :: cs)
            | _ => ColumnsToGetS.all)⟩,
          page_size, some p, some ((p - 1) * page_size), false⟩ := by
      unfold Store.searchPrepare
      simp only [hclamp, if_false, Option.isSome_some, Option.isSome_none, and_false,
        if_false, hfloor]
      rw [if_neg (by simp), if_neg (by
        intro h
        exact absurd h.2 (by omega))]
    exact ⟨_, hprep, rfl, by unfold Store.search; rw [hprep]⟩
  · intro hgt
    have hprep : Store.searchPrepare query columns sort_fields (some p) page_size Option.none
        true = .error (pageTooLargeMsg page_size) := by
      unfold Store.searchPrepare
      simp only [hclamp, if_false, Option.isSome_some, Option.isSome_none, and_false,
        if_false, hfloor]
      rw [if_neg (by simp), if_pos (by exact ⟨trivial, hgt⟩)]
    unfold Store.search
    rw [hprep]
    rfl

/-- Witness for C4 at the boundary: `page_no = 201`, `page_size = 50` gives
`offset = 10000 = MAX_OFFSET` and the call proceeds. -/
theorem C4_offset_bound_witness :
    ∃ prep, Store.searchPrepare Option.none Option.none Option.none (some 201) 50 Option.none
        true = .ok prep
      ∧ prep.req.offset = some ((201 - 1) * 50)
      ∧ Store.search Option.none Option.none Option.none (some 201) 50 Option.none true
          (fun _ => ⟨[], 0, Option.none⟩)
          = .ok (Store.searchAssemble prep ((fun _ => ⟨[], 0, Option.none⟩) prep.req)) :=
  (C4_offset_bound Option.none Option.none Option.none 201 50 (fun _ => ⟨[], 0, Option.none⟩)
    (by norm_num) (by norm_num)).1 (by norm_num [MAX_OFFSET])

/-- C6 counterexample: with `page_size = 0` the effective page size is the
default 10 — not 1, as a clamp to `[1, max]` would give — and 10 is both
the limit in the request and the page size reported. -/
theorem C6_counterexample :
    (Store.searchPrepare Option.none Option.none Option.none (some 1) 0 Option.none
        true).map (fun prep => (prep.req.limit, prep.page_size)) = Except.ok ((10 : Int), (10 : Int))
      ∧ ((10 : Int) ≠ 1) := by
  constructor
  · rfl
  · decide

/-- C6 amended: a `page_size` below 1 is replaced by the default 10 (not
clamped to 1), positive values pass through with no upper cap, and this
effective value is both the limit sent to the backend and the `page_size`
reported in the response metadata. -/
theorem C6_page_size_default (query : Option PyDict) (columns : Option (List PyStr))
    (sort_fields : Option (List (PyStr × Int))) (page_no : Option Int) (page_size : Int)
    (next_token : Option PyStr) (max_page_no_limit : Bool) (backend : SearchRequest → SearchRS)
    (prep : PreparedSearch)
    (h : Store.searchPrepare query columns sort_fields page_no page_size next_token
        max_page_no_limit = .ok prep) :
    prep.req.limit = (if page_size < 1 then 10 else page_size)
      ∧ (Store.searchAssemble prep (backend prep.req)).page_size
          = (if page_size < 1 then 10 else page_size) := by
  have hps : prep.req.limit = (if page_size < 1 then 10 else page_size)
      ∧ prep.page_size = (if page_size < 1 then 10 else page_size) := by
    unfold Store.searchPrepare at h
    dsimp only [] at h
    set eff := (if page_size < 1 then (10 : Int) else page_size) with heff
    split at h
    · exact Except.noConfusion h
    · split at h
      · cases Except.ok.inj h
        exact ⟨rfl, rfl⟩
      · split at h <;> split at h <;>
          first
            | exact Except.noConfusion h
            | (cases Except.ok.inj h; exact ⟨rfl, rfl⟩)
  refine ⟨hps.1, ?_⟩
  unfold Store.searchAssemble
  split <;> simp [hps.2]

/-- Witness for the amended C6 at `page_size = 0`. -/
theorem C6_page_size_default_witness :
    (⟨⟨.matchAll, Option.none, true, 10, some 0, Option.none, .all⟩,
        10, some 1, some 0, false⟩ : PreparedSearch).req.limit = (if (0 : Int) < 1 then 10 else 0)
      ∧ (Store.searchAssemble
          ⟨⟨.matchAll, Option.none, true, 10, some 0, Option.none, .all⟩,
            10, some 1, some 0, false⟩
          ((fun _ => ⟨[], 0, Option.none⟩) (⟨⟨.matchAll, Option.none, true, 10, some 0,
            Option.none, .all⟩, 10, some 1, some 0, false⟩ : PreparedSearch).req)).page_size
        = (if (0 : Int) < 1 then 10 else 0) :=
  C6_page_size_default Option.none Option.none Option.none (some 1) 0 Option.none true
    (fun _ => ⟨[], 0, Option.none⟩) _ (by rfl)

/-- The final `put` dict recorded by each outcome. -/
def UpsertOutcome.finalPutOf : UpsertOutcome → PyDict
  | .missingPk _ p => p
  | .inserted _ _ p => p
  | .insertRaised _ p => p
  | .noUpdate p => p
  | .updated _ _ _ p => p

/-- The error the call re-raised from the insert attempt, if any. -/
def UpsertOutcome.propagated : UpsertOutcome → Option PutRowError
  | .insertRaised e _ => some e
  | _ => Option.none

/-- Did the call reach the update path after the failed insert? -/
def UpsertOutcome.fellThrough : UpsertOutcome → Bool
  | .updated _ _ _ _ => true
  | .noUpdate _ => true
  | _ => false

/-- Was an `update_row` call issued? -/
def UpsertOutcome.updateIssued : UpsertOutcome → Bool
  | .updated _ _ _ _ => true
  | _ => false

/-- The row-existence condition the update carried, if one was issued. -/
def UpsertOutcome.updateCondOf : UpsertOutcome → Option RowExistence
  | .updated _ _ c _ => some c
  | _ => Option.none

theorem dictPop_of_not_has (put : PyDict) (k : PyStr) (h : dictHas put k = false) :
    put.filter (fun kv => kv.1 ≠ k) = put := by
  induction put with
  | nil => rfl
  | cons kv rest ih =>
    obtain ⟨k', v⟩ := kv
    simp only [dictHas, dictGet] at h ih
    by_cases hk : k' = k
    · rw [if_pos hk] at h
      simp at h
    · rw [if_neg hk] at h
      simp only [List.filter_cons]
      rw [if_pos (by simpa using hk)]
      rw [ih h]

theorem pkLoop_spec (cond : PyDict) :
    ∀ (pks : List PyStr) (put : PyDict) (acc : List (PyStr × PyVal)),
    (∀ k ∈ pks, dictHas cond k = true) →
    ∃ pk, pkLoop pks cond put acc
      = .ok (pk, put.filter (fun kv => decide (kv.1 ∉ pks))) := by
  intro pks
  induction pks with
  | nil =>
    intro put acc _
    refine ⟨acc, ?_⟩
    unfold pkLoop
    congr 1
    simp
  | cons k rest ih =>
    intro put acc hvalid
    have hk : dictHas cond k = true := hvalid k (by simp)
    unfold pkLoop
    rw [hk]
    simp only [Bool.true_eq_false, if_false]
    have hput : (if dictHas put k then dictPop put k else put)
        = put.filter (fun kv => kv.1 ≠ k) := by
      by_cases hh : dictHas put k
      · rw [if_pos hh]
        rfl
      · rw [if_neg hh]
        rw [dictPop_of_not_has put k (by simpa using hh)]
    rw [hput]
    obtain ⟨pk, hpk⟩ := ih (put.filter (fun kv => kv.1 ≠ k)) (acc ++ [(k, (dictGet cond k).getD PyVal.none)])
      (fun k' hk' => hvalid k' (by simp [hk']))
    refine ⟨pk, ?_⟩
    rw [hpk]
    congr 1
    congr 1
    rw [List.filter_filter]
    apply List.filter_congr
    intro kv _
    by_cases h1 : kv.1 = k <;> by_cases h2 : kv.1 ∈ rest <;> simp [h1, h2]

/-- C10: upsert removes every primary-key-named entry from the caller's
`put` dict in place (the pops happen in the validation loop, before the
insert is attempted), and leaves every other entry of `put` unchanged, in
order.  Stated for calls that pass primary-key validation. -/
theorem C10_put_scrubbed (pks : List PyStr) (cond put set_on_insert : PyDict)
    (kwargs : List (PyStr × PyDict)) (putRowResult : Except PutRowError Unit)
    (hvalid : ∀ k ∈ pks, dictHas cond k = true) :
    (Store.upsert pks cond put set_on_insert kwargs putRowResult).finalPutOf
      = put.filter (fun kv => decide (kv.1 ∉ pks)) := by
  obtain ⟨pk, hpk⟩ := pkLoop_spec cond pks put [] hvalid
  unfold Store.upsert
  rw [hpk]
  cases putRowResult with
  | ok a => rfl
  | error e =>
    by_cases hpre : dupColMsgStart.isPrefixOf e.msg
    · simp only [hpre, if_true]
      split <;> rfl
    · simp only [hpre, Bool.false_eq_true, if_false]
      rfl

/-- Witness for C10: popping `id` from `put` while `x` survives. -/
theorem C10_put_scrubbed_witness :
    (Store.upsert [pys "id"] [(pys "id", .int 1)]
        [(pys "id", .int 2), (pys "x", .int 3)] [] [] (.ok ())).finalPutOf
      = [(pys "id", .int 2), (pys "x", .int 3)].filter
          (fun kv => decide (kv.1 ∉ [pys "id"])) :=
  C10_put_scrubbed [pys "id"] [(pys "id", .int 1)] [(pys "id", .int 2), (pys "x", .int 3)]
    [] [] (.ok ()) (by decide)

/-- C1 counterexample: a backend service error that is **not** a
row-already-exists precondition failure — here the parameter-validation
error raised because this code puts the primary-key field among the
attribute columns — is not propagated: because its message starts with
`Duplicated attribute column name`, upsert swallows it and issues the
update, contradicting the claim that every non-precondition error is
propagated with no update call. -/
theorem C1_counterexample :
    Store.upsert [pys "id"] [(pys "id", .str (pys "1"))] [(pys "x", .int 1)] [] []
        (.error (.serviceError (pys "Duplicated attribute column name: id")))
      = .updated [(pys "id", .str (pys "1"))] [(pys "put", [(pys "x", .int 1)])]
          .IGNORE [(pys "x", .int 1)] := by
  decide

/-- C1 amended: upsert's recovery is keyed on the error **message**, not on
the error's kind: when the insert attempt raises a service error whose
message starts with `Duplicated attribute column name`, upsert falls
through to the update path (one `update_row` with the `IGNORE` existence
precondition when the assembled action lists are non-empty, no second call
otherwise); any error whose message lacks that prefix — including the
backend's row-already-exists precondition failure, whose message
(`Condition check failed.`) does not carry it — is re-raised unchanged
with no update issued. -/
theorem C1_fallthrough_on_message (pks : List PyStr) (cond put set_on_insert : PyDict)
    (kwargs : List (PyStr × PyDict)) (e : PutRowError)
    (hvalid : ∀ k ∈ pks, dictHas cond k = true) :
    (dupColMsgStart.isPrefixOf e.msg = true →
        (Store.upsert pks cond put set_on_insert kwargs (.error e)).fellThrough = true
        ∧ (Store.upsert pks cond put set_on_insert kwargs (.error e)).propagated = Option.none
        ∧ ((Store.upsert pks cond put set_on_insert kwargs (.error e)).updateIssued = true →
            (Store.upsert pks cond put set_on_insert kwargs (.error e)).updateCondOf
              = some .IGNORE))
    ∧ (dupColMsgStart.isPrefixOf e.msg = false →
        (Store.upsert pks cond put set_on_insert kwargs (.error e)).propagated = some e
        ∧ (Store.upsert pks cond put set_on_insert kwargs (.error e)).updateIssued = false) := by
  obtain ⟨pk, hpk⟩ := pkLoop_spec cond pks put [] hvalid
  unfold Store.upsert
  rw [hpk]
  constructor
  · intro hpre
    simp only [hpre, if_true]
    refine ⟨?_, ?_, ?_⟩ <;> (split <;> simp [UpsertOutcome.fellThrough,
      UpsertOutcome.propagated, UpsertOutcome.updateIssued, UpsertOutcome.updateCondOf])
  · intro hpre
    simp only [hpre, Bool.false_eq_true, if_false]
    exact ⟨rfl, rfl⟩

/-- Witness for the amended C1: the backend's real precondition-failure
message `Condition check failed.` lacks the prefix, so the error is
re-raised and no update happens. -/
theorem C1_fallthrough_on_message_witness :
    (Store.upsert [pys "id"] [(pys "id", .int 1)] [(pys "x", .int 2)] [] []
        (.error (.preconditionFailed (pys "Condition check failed.")))).propagated
      = some (.preconditionFailed (pys "Condition check failed."))
    ∧ (Store.upsert [pys "id"] [(pys "id", .int 1)] [(pys "x", .int 2)] [] []
        (.error (.preconditionFailed (pys "Condition check failed.")))).updateIssued = false :=
  (C1_fallthrough_on_message [pys "id"] [(pys "id", .int 1)] [(pys "x", .int 2)] [] []
    (.preconditionFailed (pys "Condition check failed."))
    (by decide)).2 (by decide)

/-- Does a row respect the invariant that attribute-column names avoid the
primary-key names? -/
def rowInvariant (r : RowS) : Bool :=
  r.attribute_columns.all (fun kv => !((r.primary_key.map Prod.fst).contains kv.1))

/-- C7 counterexample: the row built by upsert's insert attempt carries
every `cond` field — the primary-key field included — as an attribute
column, so the attribute names are not disjoint from the primary-key
names. -/
theorem C7_counterexample :
    Store.upsert [pys "id"] [(pys "id", .str (pys "1"))] [(pys "x", .int 1)] [] [] (.ok ())
      = .inserted ⟨[(pys "id", .str (pys "1"))],
          [(pys "id", .str (pys "1")), (pys "x", .int 1)]⟩ .EXPECT_NOT_EXIST
          [(pys "x", .int 1)]
    ∧ rowInvariant ⟨[(pys "id", .str (pys "1"))],
        [(pys "id", .str (pys "1")), (pys "x", .int 1)]⟩ = false := by
  decide

theorem dict2rowSplit_keys (pks : List PyStr) (d : PyDict) :
    (∀ kv ∈ (Store.dict2rowSplit pks d).1, kv.1 ∈ pks)
    ∧ (∀ kv ∈ (Store.dict2rowSplit pks d).2, kv.1 ∉ pks) := by
  induction d with
  | nil => exact ⟨fun kv h => absurd h (List.not_mem_nil kv), fun kv h => absurd h (List.not_mem_nil kv)⟩
  | cons kv0 rest ih =>
    obtain ⟨k, v⟩ := kv0
    unfold Store.dict2rowSplit
    by_cases hv : v = PyVal.none
    · simpa [hv] using ih
    · by_cases hk : k ∈ pks
      · simp only [hv, if_false, hk, if_true]
        refine ⟨?_, ih.2⟩
        intro kv hkv
        rcases List.mem_cons.mp hkv with rfl | hkv
        · exact hk
        · exact ih.1 kv hkv
      · simp only [hv, if_false, hk, if_false]
        refine ⟨ih.1, ?_⟩
        intro kv hkv
        rcases List.mem_cons.mp hkv with rfl | hkv
        · exact hk
        · exact ih.2 kv hkv

/-- C7 amended: rows built by the row codec `dict2row` do satisfy the
invariant — attribute-column names never include primary-key names — but
the hand-assembled row of upsert's insert attempt violates it (see the
counterexample). -/
theorem C7_dict2row_invariant (pks : List PyStr) (d : PyDict) :
    rowInvariant (Store.dict2row pks d) = true := by
  obtain ⟨hin, hout⟩ := dict2rowSplit_keys pks d
  unfold rowInvariant Store.dict2row
  rw [List.all_eq_true]
  intro kv hkv
  have hnot := hout kv hkv
  have hmem : kv.1 ∉ (Store.dict2rowSplit pks d).1.map Prod.fst := by
    intro hmem
    obtain ⟨p, hp, hpeq⟩ := List.mem_map.mp hmem
    exact hnot (by
      have := hin p hp
      rwa [hpeq] at this)
  simpa using hmem

/-- C2 counterexample: a None-valued attribute is dropped by `dict2row`
(never written), so decoding the encoded row loses the entry and the
round trip is not the identity, although `None` is a scalar and not a
bracket-shaped string. -/
theorem C2_counterexample :
    ¬ List.Perm
      (Store.row2dict (Store.dict2row [pys "id"]
        [(pys "id", .str (pys "1")), (pys "a", PyVal.none)]))
      [(pys "id", .str (pys "1")), (pys "a", PyVal.none)] := by
  decide

/-- Decidable form of "not a bracket-delimited string". -/
def strNotShaped : PyVal → Bool
  | .str s => !(decide (Store.jsonShaped s))
  | _ => true

/-- C2 amended: `row2dict (dict2row attrs) == attrs` — equality of Python
dicts, i.e. equality up to reordering of the key/value pairs — for every
attribute map with distinct keys whose values contain no `None` at top
level (dropped on write), no tuple anywhere (`json.dumps` would turn it
into a JSON array that reads back as a list), and no top-level string that
is itself bracket-shaped (the decode heuristic would parse it). -/
theorem C2_roundtrip (pks : List PyStr) (d : PyDict)
    (hkeys : (keysOf d).Nodup)
    (hvals : ∀ kv ∈ d, kv.2 ≠ PyVal.none ∧ noTuple kv.2 = true ∧ strNotShaped kv.2 = true) :
    List.Perm (Store.row2dict (Store.dict2row pks d)) d := by
  apply row2dict_dict2row pks d hkeys
  intro kv hkv
  obtain ⟨h1, h2, h3⟩ := hvals kv hkv
  refine ⟨h1, h2, ?_⟩
  intro s hs
  rw [hs] at h3
  simpa [strNotShaped] using h3

/-- Witness for the amended C2: a dict with a scalar, a list and a nested
dict survives the round trip. -/
theorem C2_roundtrip_witness :
    List.Perm
      (Store.row2dict (Store.dict2row [pys "id"]
        [(pys "id", .str (pys "1")),
         (pys "tags", .list [.int 1, .str (pys "a")]),
         (pys "meta", .dict [(pys "k", PyVal.none)])]))
      [(pys "id", .str (pys "1")),
       (pys "tags", .list [.int 1, .str (pys "a")]),
       (pys "meta", .dict [(pys "k", PyVal.none)])] :=
  C2_roundtrip [pys "id"] _ (by decide) (by decide)

/-- C3 counterexample: a single recognized `field__ne` pair with an
admitting whitelist compiles to a `BoolQuery` wrapping the `Term` in
`must_not` — a boolean composite, not a leaf. -/
theorem C3_counterexample :
    build_tablestore_query (some [(pys "age__ne", .int 5)]) (fun _ => Option.none)
        (some [pys "age"]) []
      = .boolQ [] [] Option.none [.term (pys "age") (.int 5)] := by
  decide

/-- The recognized operator suffixes of `build_tablestore_query`. -/
inductive LOp where
  | eq
  | ne
  | inOp
  | nin
  | gt
  | gte
  | lt
  | lte
  | regex
  | wildcardOp
  | existsOp
  deriving DecidableEq

/-- The key suffix of each operator. -/
def LOp.key : LOp → PyStr
  | .eq => pys "eq"
  | .ne => pys "ne"
  | .inOp => pys "in"
  | .nin => pys "nin"
  | .gt => pys "gt"
  | .gte => pys "gte"
  | .lt => pys "lt"
  | .lte => pys "lte"
  | .regex => pys "regex"
  | .wildcardOp => pys "wildcard"
  | .existsOp => pys "exists"

/-- The leaf the operator table produces for a clause that is **not**
negated and not dropped: `ne` and `nin` always negate, `in` with an empty
list is dropped, and `exists` with a false-like value negates, so those
return `none`. -/
def positiveLeaf : LOp → PyStr → PyVal → Option Query
  | .eq, f, v => some (.term f v)
  | .ne, _, _ => Option.none
  | .inOp, f, v =>
    match ensure_list v with
    | [] => Option.none
    | vl => some (.terms f vl)
  | .nin, _, _ => Option.none
  | .gt, f, v => some (.range f (some v) Option.none Option.none Option.none)
  | .gte, f, v => some (.range f Option.none (some v) Option.none Option.none)
  | .lt, f, v => some (.range f Option.none Option.none (some v) Option.none)
  | .lte, f, v => some (.range f Option.none Option.none Option.none (some v))
  | .regex, f, v => some (.wildcard f (opWildcardPattern v))
  | .wildcardOp, f, v => some (.wildcard f (opWildcardPattern v))
  | .existsOp, f, v =>
    if pyEqB v (.str (pys "0")) ∨ pyEqB v (.str (pys "false")) ∨ pyEqB v (.bool false)
        ∨ pyEqB v (.str (pys "False")) then Option.none
    else some (.existsQ f)

theorem convertValue_trivial (bf : PyStr) (v : PyVal) :
    (match v with
      | .dict _ => some v
      | _ =>
        match (fun (_ : PyStr) => (Option.none : Option (PyVal → Option PyVal))) bf with
        | some f => f v
        | Option.none => some v) = some v := by
  cases v <;> rfl

theorem processEntry_positive (field : PyStr) (o : LOp) (value : PyVal)
    (fields : Option (List PyStr)) (q : Query)
    (hsplit : splitDunder (field ++ pys "__" ++ o.key) = [field, o.key])
    (hallow : fields = Option.none ∨ ∃ fs, fields = some fs ∧ field ∈ fs)
    (hnodot : endsDotNot field = false)
    (hleaf : positiveLeaf o field value = some q) :
    processEntry (fun _ => Option.none) fields (field ++ pys "__" ++ o.key) value
      = some (q, false) := by
  have hall : fieldAllowed fields field = true := by
    rcases hallow with rfl | ⟨fs, rfl, hmem⟩
    · rfl
    · cases fs with
      | nil => exact absurd hmem (List.not_mem_nil field)
      | cons f fs' => simpa [fieldAllowed] using hmem
  unfold processEntry
  rw [hsplit]
  simp only [List.headD, List.length_cons, List.length_nil, List.getLastD]
  rw [hall]
  simp only [Bool.true_eq_false, if_false, convertValue_trivial, hnodot]
  cases o with
  | eq =>
    simp only [positiveLeaf, Option.some.injEq] at hleaf
    subst hleaf
    cases value <;> simp [LOp.key, pys]
  | ne => simp [positiveLeaf] at hleaf
  | inOp =>
    simp only [positiveLeaf] at hleaf
    rcases hel : ensure_list value with - | ⟨v0, vl⟩ <;> rw [hel] at hleaf
    · simp at hleaf
    · simp only [Option.some.injEq] at hleaf
      subst hleaf
      cases value <;> simp_all [LOp.key, pys, ensure_list]
  | nin => simp [positiveLeaf] at hleaf
  | gt =>
    simp only [positiveLeaf, Option.some.injEq] at hleaf
    subst hleaf
    cases value <;> simp [LOp.key, pys]
  | gte =>
    simp only [positiveLeaf, Option.some.injEq] at hleaf
    subst hleaf
    cases value <;> simp [LOp.key, pys]
  | lt =>
    simp only [positiveLeaf, Option.some.injEq] at hleaf
    subst hleaf
    cases value <;> simp [LOp.key, pys]
  | lte =>
    simp only [positiveLeaf, Option.some.injEq] at hleaf
    subst hleaf
    cases value <;> simp [LOp.key, pys]
  | regex =>
    simp only [positiveLeaf, Option.some.injEq] at hleaf
    subst hleaf
    cases value <;> simp [LOp.key, pys]
  | wildcardOp =>
    simp only [positiveLeaf, Option.some.injEq] at hleaf
    subst hleaf
    cases value <;> simp [LOp.key, pys]
  | existsOp =>
    simp only [positiveLeaf] at hleaf
    by_cases hflag : pyEqB value (.str (pys "0")) ∨ pyEqB value (.str (pys "false"))
        ∨ pyEqB value (.bool false) ∨ pyEqB value (.str (pys "False"))
    · simp [hflag] at hleaf
    · simp only [hflag, if_false, Option.some.injEq] at hleaf
      subst hleaf
      cases value <;> simp_all [LOp.key, pys]

/-- C3 (amended): for every filter map consisting of exactly one
`field__op` entry with a recognized operator, where the whitelist admits
the field and the clause is **positive** (not `ne`/`nin`, not dropped, and
not a false-like `exists`), `build_tablestore_query` returns the single
corresponding leaf query (Term/Terms/Range/Wildcard/Exists), never wrapped
in a boolean composite.  Negated operators (`ne`, `nin`, false-like
`exists`, `.not`-suffixed fields) land in `must_not` and are always
wrapped in a `BoolQuery`. -/
theorem C3_single_positive_leaf (field : PyStr) (o : LOp) (value : PyVal)
    (fields : Option (List PyStr)) (q : Query)
    (hsplit : splitDunder (field ++ pys "__" ++ o.key) = [field, o.key])
    (hallow : fields = Option.none ∨ ∃ fs, fields = some fs ∧ field ∈ fs)
    (hnodot : endsDotNot field = false)
    (hleaf : positiveLeaf o field value = some q) :
    build_tablestore_query (some [(field ++ pys "__" ++ o.key, value)])
      (fun _ => Option.none) fields [] = q := by
  have hpe := processEntry_positive field o value fields q hsplit hallow hnodot hleaf
  have hne : (field ++ pys "__" ++ o.key) ≠ pys "search" := by
    intro h
    have : splitDunder (pys "search") = [field, o.key] := h ▸ hsplit
    have hlen : (splitDunder (pys "search")).length = 2 := by rw [this]; rfl
    simp [splitDunder, pys] at hlen
  unfold build_tablestore_query
  simp only []
  rw [if_neg (by simp)]
  have hsrch : searchClauses [(field ++ pys "__" ++ o.key, value)] fields [] = [] := by
    simp [searchClauses]
  rw [hsrch]
  simp only [List.foldl_cons, List.foldl_nil]
  rw [if_neg hne, hpe]
  simp

theorem C3_single_positive_leaf_witness :
    build_tablestore_query (some [(pys "age__gt", .int 5)]) (fun _ => Option.none)
        (some [pys "age"]) []
      = .range (pys "age") (some (.int 5)) Option.none Option.none Option.none := by
  have h := C3_single_positive_leaf (pys "age") .gt (.int 5) (some [pys "age"])
    (.range (pys "age") (some (.int 5)) Option.none Option.none Option.none)
    (by decide) (Or.inr ⟨[pys "age"], rfl, by decide⟩) (by decide) (by decide)
  exact h

/-- C8 counterexample: the reserved `search` value `a*b` already contains a
wildcard, yet the emitted pattern is `a*b*` — the code appends the trailing
`*` whenever the pattern does not **end** with `*`, not whenever it
contains no wildcard at all. -/
theorem C8_counterexample :
    build_tablestore_query (some [(pys "search", .str (pys "a*b"))])
        (fun _ => Option.none) Option.none [pys "name"]
      = .boolQ [] [.wildcard (pys "name") (pys "a*b*")] (some 1) []
    ∧ pys "a*b*" ≠ pys "a*b" := by
  decide

/-- C8 (amended): when full-text search fields are configured and the
`search` value is a string that is non-empty before and after trimming,
`build_tablestore_query` emits one Wildcard clause per allowed full-text
field, every clause carrying the pattern `searchPattern sv` — the trimmed
value with `%`→`*` and `_`→`?`, plus a trailing `*` appended exactly when
the normalized pattern does not already end with `*` — combined as
`should` with `minimum_should_match = 1`; consequently every emitted
pattern ends with `*`. -/
theorem C8_search_should_clauses (sv : PyStr)
    (field_types : PyStr → Option (PyVal → Option PyVal))
    (fields : Option (List PyStr)) (search_fields : List PyStr)
    (hsv : sv ≠ [] ∧ pyStrip sv ≠ [])
    (hcl : search_fields.filter (fun fn => fieldAllowed fields fn) ≠ []) :
    build_tablestore_query (some [(pys "search", .str sv)]) field_types fields search_fields
      = .boolQ []
          ((search_fields.filter (fun fn => fieldAllowed fields fn)).map
            (fun fn => Query.wildcard fn (searchPattern sv)))
          (some 1) []
    ∧ (searchPattern sv).getLast? = some '*' := by
  have hsf : search_fields ≠ [] := by
    intro h
    subst h
    simp at hcl
  constructor
  · have hsrch : searchClauses [(pys "search", .str sv)] fields search_fields
        = (search_fields.filter (fun fn => fieldAllowed fields fn)).map
            (fun fn => Query.wildcard fn (searchPattern sv)) := by
      simp [searchClauses, hsf, dictGet, hsv.1, hsv.2]
    unfold build_tablestore_query
    simp only []
    rw [if_neg (by simp), hsrch]
    simp only [List.foldl_cons, List.foldl_nil]
    simp [hcl]
  · rw [searchPattern]
    by_cases hp : (pyReplaceChar '_' '?' (pyReplaceChar '%' '*' (pyStrip sv))).getLast? = some '*'
    · rw [if_pos hp]
      exact hp
    · rw [if_neg hp]
      simp [List.getLast?_concat]

theorem C8_search_should_clauses_witness :
    build_tablestore_query (some [(pys "search", .str (pys "ab"))])
        (fun _ => Option.none) Option.none [pys "name"]
      = .boolQ []
          (([pys "name"].filter (fun fn => fieldAllowed Option.none fn)).map
            (fun fn => Query.wildcard fn (searchPattern (pys "ab"))))
          (some 1) []
    ∧ (searchPattern (pys "ab")).getLast? = some '*' :=
  C8_search_should_clauses (pys "ab") (fun _ => Option.none) Option.none [pys "name"]
    ⟨by decide, by decide⟩ (by decide)

/-- A backend response on which the scan loop continues: a non-empty batch
together with a truthy continuation key. -/
def respContinues (r : RangeResponse) : Bool :=
  if r.rows = [] then false
  else
    match r.next_start_pk with
    | Option.none => false
    | some nxt => if nxt = [] then false else true

/-- The effective batch size of `Store.all`: non-positive values become the
default 100, then the result is capped at 500. -/
def Store.allBatch (batch_size : Int) : Int :=
  let b := if batch_size < 1 then 100 else batch_size
  if b > 500 then 500 else b

theorem Store.all_eq (pks : List PyStr) (batch_size : Int) (cols : Option (List PyStr))
    (script : List RangeResponse) :
    Store.all pks batch_size cols script
      = Store.scanLoop pks (Store.allBatch batch_size) cols
          (pks.map (fun pk => (pk, PKVal.INF_MIN))) script := rfl

theorem scanLoop_reqs (pks : List PyStr) (bs : Int) (cols : Option (List PyStr))
    (script : List RangeResponse) :
    ∀ start_pk : List (PyStr × PKVal),
    (Store.scanLoop pks bs cols start_pk script).1
      = (start_pk :: (script.takeWhile respContinues).map
          (fun r => r.next_start_pk.getD [])).map (mkRangeReq pks bs cols) := by
  induction script with
  | nil =>
    intro start_pk
    simp [Store.scanLoop]
  | cons r script ih =>
    intro start_pk
    rw [Store.scanLoop]
    by_cases hr : r.rows = []
    · simp [hr, List.takeWhile_cons, respContinues]
    · rw [if_neg hr]
      cases hn : r.next_start_pk with
      | none => simp [List.takeWhile_cons, respContinues, hr, hn]
      | some nxt =>
        by_cases hx : nxt = []
        · simp [List.takeWhile_cons, respContinues, hr, hn, hx]
        · simp [List.takeWhile_cons, respContinues, hr, hn, hx, ih]

theorem scanLoop_stop (pks : List PyStr) (bs : Int) (cols : Option (List PyStr))
    (script : List RangeResponse) :
    ∀ start_pk : List (PyStr × PKVal),
    (Store.scanLoop pks bs cols start_pk script).2.2
      = match script.dropWhile respContinues with
        | [] => ScanStop.noResponse
        | r :: _ => if r.rows = [] then ScanStop.emptyRows else ScanStop.noNext := by
  induction script with
  | nil =>
    intro start_pk
    simp [Store.scanLoop]
  | cons r script ih =>
    intro start_pk
    rw [Store.scanLoop]
    by_cases hr : r.rows = []
    · simp [hr, List.dropWhile_cons, respContinues]
    · rw [if_neg hr]
      cases hn : r.next_start_pk with
      | none => simp [List.dropWhile_cons, respContinues, hr, hn]
      | some nxt =>
        by_cases hx : nxt = []
        · simp [List.dropWhile_cons, respContinues, hr, hn, hx]
        · simp [List.dropWhile_cons, respContinues, hr, hn, hx, ih]

/-- C9: for every backend response script, `Store.all` issues its first
get-range request with the minimum-sentinel inclusive start key; every
request is FORWARD with the maximum-sentinel exclusive end key; each
subsequent request's inclusive start key is exactly the continuation key
the backend returned for the previous batch (the requests are the map of
`mkRangeReq` over the verbatim continuation keys of the continuing
responses); and the loop stops precisely at the first response with an
empty batch (`emptyRows`) or a falsy continuation key (`noNext`),
consuming the whole script otherwise. -/
theorem C9_scan_protocol (pks : List PyStr) (batch_size : Int)
    (cols : Option (List PyStr)) (script : List RangeResponse) :
    (Store.all pks batch_size cols script).1
      = List.map (mkRangeReq pks (Store.allBatch batch_size) cols)
          ((pks.map (fun pk => (pk, PKVal.INF_MIN)))
            :: (script.takeWhile respContinues).map (fun r => r.next_start_pk.getD []))
    ∧ (∀ r ∈ (Store.all pks batch_size cols script).1,
        r.direction = DirectionS.FORWARD
        ∧ r.exclusive_end_primary_key = pks.map (fun pk => (pk, PKVal.INF_MAX)))
    ∧ (Store.all pks batch_size cols script).2.2
      = match script.dropWhile respContinues with
        | [] => ScanStop.noResponse
        | r :: _ => if r.rows = [] then ScanStop.emptyRows else ScanStop.noNext := by
  refine ⟨?_, ?_, ?_⟩
  · rw [Store.all_eq, scanLoop_reqs]
  · intro r hr
    rw [Store.all_eq, scanLoop_reqs] at hr
    rcases List.mem_map.mp hr with ⟨s, _, rfl⟩
    exact ⟨rfl, rfl⟩
  · rw [Store.all_eq, scanLoop_stop]

theorem C9_scan_protocol_witness :
    (Store.all [pys "id"] 100 Option.none
        [⟨some [(pys "id", PKVal.val (PyVal.int 1))], [⟨[(pys "id", PyVal.int 0)], []⟩]⟩,
         ⟨Option.none, [⟨[(pys "id", PyVal.int 1)], []⟩]⟩]).2.2 = ScanStop.noNext := by
  have h := C9_scan_protocol [pys "id"] 100 Option.none
    [⟨some [(pys "id", PKVal.val (PyVal.int 1))], [⟨[(pys "id", PyVal.int 0)], []⟩]⟩,
     ⟨Option.none, [⟨[(pys "id", PyVal.int 1)], []⟩]⟩]
  rw [h.2.2]
  rfl
